import Mathlib

/-!
Verification development for the storage / concurrency core of the
BusTub-derived database engine (buffer pool manager, LRU and Clock
replacers, B+Tree index, lock manager deadlock detector).

Each C++ component is shallowly embedded as executable Lean definitions
that mirror the corresponding source function statement by statement;
stateful methods become functions from an explicit state record to a
(result, new state) pair.  Machine integers are modelled as `Int`/`Nat`
(page ids can be the sentinel `-1`; counters in the source never
overflow on the inputs considered).  The concurrency wrappers
(mutexes, latches, condition variables) serialize each call in the
source, so a single call is modelled as an atomic state transformation.
-/

namespace Bustub

/-! # Buffer pool manager (`buffer_pool_manager_instance.cpp`)

The embedded state carries the frame array, the page table, the free
list, the LRU replacer, the next-page-id counter, the disk contents,
and (as an observation log) the page ids passed to
`DiskManager::DeallocatePage`.  Page payloads are abstracted to a
single `Nat` datum; `memset(...,0,...)` writes `0`. -/

/-- In-frame page metadata plus abstract payload, mirroring `Page`.
`page_id = -1` is `INVALID_PAGE_ID`. -/
structure Page where
  page_id : Int
  pin_count : Nat
  is_dirty : Bool
  data : Nat
deriving DecidableEq, Repr

/-- `LRUReplacer`: `lru` lists frames front = most recently unpinned;
`Victim` takes from the back (`lru_list_.back()`). -/
structure LRU where
  lru : List Nat
  capacity : Nat
deriving DecidableEq, Repr

/-- `LRUReplacer::Victim`: pop the least-recently-unpinned frame. -/
def LRU.victim (r : LRU) : Option Nat × LRU :=
  match r.lru.getLast? with
  | none => (none, r)
  | some f => (some f, { r with lru := r.lru.dropLast })

/-- `LRUReplacer::Pin`: erase the frame if tracked. -/
def LRU.pin (r : LRU) (f : Nat) : LRU :=
  { r with lru := r.lru.erase f }

/-- The eviction loop in `LRUReplacer::Unpin`
(`while lru_list_.size() >= capacity_ pop_back`); the extra empty-list
guard only matters for `capacity = 0`, which the buffer pool never
uses. -/
def LRU.shrink (cap : Nat) : List Nat → List Nat
  | [] => []
  | x :: xs => if cap ≤ (x :: xs).length then LRU.shrink cap (x :: xs).dropLast else x :: xs
termination_by l => l.length
decreasing_by simp [List.length_dropLast]

/-- `LRUReplacer::Unpin`: no-op when already tracked, otherwise evict
down to capacity and push to the front. -/
def LRU.unpin (r : LRU) (f : Nat) : LRU :=
  if f ∈ r.lru then r
  else { r with lru := f :: LRU.shrink r.capacity r.lru }

/-- `BufferPoolManagerInstance` state (single instance,
`num_instances = 1`, `instance_index = 0`).  `disk` is the disk
manager's page store, `dealloc_log` records every
`DiskManager::DeallocatePage` call. -/
structure BPM where
  pool_size : Nat
  pages : List Page
  page_table : List (Int × Nat)
  free_list : List Nat
  replacer : LRU
  next_page_id : Int
  disk : List (Int × Nat)
  dealloc_log : List Int
deriving DecidableEq, Repr

/-- The constructor: every frame on the free list, metadata reset. -/
def BPM.init (n : Nat) : BPM :=
  { pool_size := n
    pages := List.replicate n { page_id := -1, pin_count := 0, is_dirty := false, data := 0 }
    page_table := []
    free_list := List.range n
    replacer := { lru := [], capacity := n }
    next_page_id := 0
    disk := []
    dealloc_log := [] }

def BPM.getFrame (s : BPM) (f : Nat) : Page :=
  s.pages.getD f { page_id := -1, pin_count := 0, is_dirty := false, data := 0 }

def BPM.setFrame (s : BPM) (f : Nat) (p : Page) : BPM :=
  { s with pages := s.pages.set f p }

/-- `std::unordered_map` insert-or-assign on the page table. -/
def tableInsert (t : List (Int × Nat)) (pid : Int) (f : Nat) : List (Int × Nat) :=
  (pid, f) :: t.filter (fun e => e.1 ≠ pid)

/-- `page_table_.erase(pid)`. -/
def tableErase (t : List (Int × Nat)) (pid : Int) : List (Int × Nat) :=
  t.filter (fun e => e.1 ≠ pid)

/-- Disk manager `WritePage`. -/
def diskWrite (d : List (Int × Nat)) (pid : Int) (v : Nat) : List (Int × Nat) :=
  (pid, v) :: d.filter (fun e => e.1 ≠ pid)

/-- Disk manager `ReadPage` (unwritten pages read back as zeroes). -/
def diskRead (d : List (Int × Nat)) (pid : Int) : Nat :=
  (d.lookup pid).getD 0

/-- `BufferPoolManagerInstance::FindPage`: page-table lookup
(`-1` on miss becomes `none`). -/
def BPM.findPage (s : BPM) (pid : Int) : Option Nat :=
  s.page_table.lookup pid

/-- `BufferPoolManagerInstance::FlushPg`: if the page is mapped and
dirty, write it to disk, clear the dirty bit, and (as the source does)
reset `pin_count_` to `0`. -/
def BPM.flushPg (s : BPM) (pid : Int) : BPM :=
  match s.findPage pid with
  | none => s
  | some f =>
    let p := s.getFrame f
    if p.is_dirty then
      let s := s.setFrame f { p with is_dirty := false, pin_count := 0 }
      { s with disk := diskWrite s.disk pid p.data }
    else s

/-- `BufferPoolManagerInstance::FlushPgImp`. -/
def BPM.flushPage (s : BPM) (pid : Int) : Bool × BPM :=
  match s.findPage pid with
  | none => (false, s)
  | some _ => (true, s.flushPg pid)

/-- `BufferPoolManagerInstance::FindAvailablePg`: free list first, then
an LRU victim (flushing it and erasing its page-table entry). -/
def BPM.findAvailablePg (s : BPM) : Option Nat × BPM :=
  match s.free_list with
  | f :: rest => (some f, { s with free_list := rest })
  | [] =>
    match s.replacer.victim with
    | (some f, r) =>
      let s := { s with replacer := r }
      let victimPid := (s.getFrame f).page_id
      let s := s.flushPg victimPid
      (some f, { s with page_table := tableErase s.page_table victimPid })
    | (none, r) => (none, { s with replacer := r })

/-- `BufferPoolManagerInstance::AllocatePage` for a single instance:
return `next_page_id_` and advance it by `num_instances_ = 1`. -/
def BPM.allocatePage (s : BPM) : Int × BPM :=
  (s.next_page_id, { s with next_page_id := s.next_page_id + 1 })

/-- `BufferPoolManagerInstance::NewPgImp`. -/
def BPM.newPage (s : BPM) : Option Int × BPM :=
  match s.findAvailablePg with
  | (none, s) => (none, s)
  | (some f, s) =>
    let (pid, s) := s.allocatePage
    let p := s.getFrame f
    let s := s.setFrame f { p with page_id := pid, pin_count := p.pin_count + 1, data := 0 }
    (some pid, { s with page_table := tableInsert s.page_table pid f })

/-- `BufferPoolManagerInstance::FetchPgImp`.  On a hit the source
increments `pin_count_`, pins the frame in the replacer, and sets
`is_dirty_ = true`.  On a miss it takes an available frame, flushes the
(already erased) previous resident, installs the mapping, and reads
the page from disk. -/
def BPM.fetchPage (s : BPM) (pid : Int) : Option Int × BPM :=
  match s.findPage pid with
  | some f =>
    let p := s.getFrame f
    let s := s.setFrame f { p with pin_count := p.pin_count + 1, is_dirty := true }
    (some pid, { s with replacer := s.replacer.pin f })
  | none =>
    match s.findAvailablePg with
    | (none, s) => (none, s)
    | (some f, s) =>
      let s := s.flushPg (s.getFrame f).page_id
      let s := { s with page_table := tableErase s.page_table (s.getFrame f).page_id }
      let s := { s with page_table := tableInsert s.page_table pid f }
      let p := s.getFrame f
      let s := s.setFrame f
        { p with page_id := pid, pin_count := p.pin_count + 1, is_dirty := false,
                 data := diskRead s.disk pid }
      (some pid, { s with replacer := s.replacer.pin f })

/-- `BufferPoolManagerInstance::UnpinPgImp`.  Note the source assigns
`is_dirty_ = is_dirty` (no OR), and when the pin count reaches zero it
unpins the frame in the replacer and synchronously flushes the page. -/
def BPM.unpinPage (s : BPM) (pid : Int) (is_dirty : Bool) : Bool × BPM :=
  match s.findPage pid with
  | none => (false, s)
  | some f =>
    let p := s.getFrame f
    if p.pin_count = 0 then (false, s)
    else
      let s := s.setFrame f { p with is_dirty := is_dirty, pin_count := p.pin_count - 1 }
      if p.pin_count - 1 = 0 then
        let s := { s with replacer := s.replacer.unpin f }
        (true, s.flushPg pid)
      else (true, s)

/-- `BufferPoolManagerInstance::DeletePgImp`: `DeallocatePage` is
invoked unconditionally before any check. -/
def BPM.deletePage (s : BPM) (pid : Int) : Bool × BPM :=
  let s := { s with dealloc_log := s.dealloc_log ++ [pid] }
  match s.findPage pid with
  | none => (true, s)
  | some f =>
    let p := s.getFrame f
    if p.pin_count ≠ 0 then (false, s)
    else
      let s := { s with page_table := tableErase s.page_table pid }
      let s := s.setFrame f { p with page_id := -1, is_dirty := false, data := 0 }
      (true, { s with free_list := s.free_list ++ [f] })

/-! ## Buffer pool claims C1, C2, C3, C10 -/

/-- A reachable one-frame pool state whose only frame is mapped
(page 0), pinned twice and dirty: `NewPage` followed by a
`FetchPage(0)` hit (the hit path sets `is_dirty_ = true`). -/
def dirtyPinnedState : BPM := (BPM.fetchPage (BPM.newPage (BPM.init 1)).2 0).2

/-- The state after additionally calling `FlushPage(0)` on
`dirtyPinnedState`. -/
def flushedPinnedState : BPM := (dirtyPinnedState.flushPage 0).2

/-- Claim C1 (code bug): on a mapped, pinned and dirty frame,
`UnpinPage(page_id, false)` returns true but overwrites the dirty bit
with `false` instead of OR-ing it — the set dirty bit is cleared,
contrary to the claim that it is never cleared. -/
theorem unpinPage_overwrites_dirty_bit :
    (dirtyPinnedState.getFrame 0).is_dirty = true ∧
    (dirtyPinnedState.unpinPage 0 false).1 = true ∧
    ((dirtyPinnedState.unpinPage 0 false).2.getFrame 0).is_dirty = false := by decide

/-- Claim C2 (code bug): in `flushedPinnedState` frame 0 has
`pin_count = 0` (reset by `FlushPg`) yet is neither on the free list
nor in the replacer, so `NewPage` returns null although not every
frame has `pin_count > 0`, refuting the claimed "null iff all frames
pinned" equivalence. -/
theorem newPage_null_despite_unpinned_frame :
    (flushedPinnedState.newPage).1 = none ∧
    (flushedPinnedState.getFrame 0).pin_count = 0 ∧
    flushedPinnedState.free_list = [] ∧
    flushedPinnedState.replacer.lru = [] := by decide

/-- Claim C3 (code bug): `FlushPage` on a mapped dirty page with
`pin_count = 2` returns true, writes the page to disk and clears the
dirty bit, but resets `pin_count` to 0 instead of leaving it
unchanged. -/
theorem flushPage_resets_pin_count :
    (dirtyPinnedState.getFrame 0).pin_count = 2 ∧
    (dirtyPinnedState.getFrame 0).is_dirty = true ∧
    (dirtyPinnedState.flushPage 0).1 = true ∧
    (dirtyPinnedState.flushPage 0).2.disk = [(0, 0)] ∧
    ((dirtyPinnedState.flushPage 0).2.getFrame 0).is_dirty = false ∧
    ((dirtyPinnedState.flushPage 0).2.getFrame 0).pin_count = 0 := by decide

theorem findPage_set_dealloc_log (s : BPM) (l : List Int) (pid : Int) :
    ({ s with dealloc_log := l } : BPM).findPage pid = s.findPage pid := rfl

/-- Claim C10 (confirmed): `DeletePage` invokes the disk manager's
`DeallocatePage` on every call — also when it returns false because
the page is pinned, and when the page is unmapped (where it returns
true). -/
theorem deletePage_always_deallocates (s : BPM) (pid : Int) :
    ((s.deletePage pid).2.dealloc_log = s.dealloc_log ++ [pid]) ∧
    (s.findPage pid = none → (s.deletePage pid).1 = true) ∧
    (∀ f, s.findPage pid = some f → (s.getFrame f).pin_count ≠ 0 →
      (s.deletePage pid).1 = false) := by
  refine ⟨?_, ?_, ?_⟩
  · simp only [BPM.deletePage]
    split
    · rfl
    · split
      · rfl
      · rfl
  · intro h
    simp only [BPM.deletePage]
    split
    · rfl
    · rename_i f heq
      have hf : s.findPage pid = some f := heq
      rw [h] at hf
      cases hf
  · intro f h hpin
    simp only [BPM.deletePage]
    split
    · rename_i heq
      have hn : s.findPage pid = none := heq
      rw [h] at hn
      cases hn
    · rename_i f' heq
      have hf : s.findPage pid = some f' := heq
      rw [h] at hf
      injection hf with hf
      subst hf
      rw [if_pos (show (({ s with dealloc_log := s.dealloc_log ++ [pid] } : BPM).getFrame
        f).pin_count ≠ 0 from hpin)]

/-! # Clock replacer (`clock_replacer.cpp`)

Each slot of `frames_` carries a `(contains, ref)` pair of bits;
`next_` is the clock hand.  The unbounded `while (true)` loop of
`Victim` is embedded with an explicit fuel parameter; claim C8 shows
that `2 * pool_size` fuel always suffices when `Size() > 0`. -/

structure Clock where
  frames : List (Bool × Bool)
  hand : Nat
deriving DecidableEq, Repr

/-- `ClockReplacer::ClockReplacer(num_pages)`. -/
def Clock.create (n : Nat) : Clock :=
  { frames := List.replicate n (false, false), hand := 0 }

/-- `ClockReplacer::Size`: number of slots with the contains bit set. -/
def Clock.size (c : Clock) : Nat := c.frames.countP (fun fr => fr.1)

/-- Read slot `i` of a frame array. -/
def clockGet (fs : List (Bool × Bool)) (i : Nat) : Bool × Bool :=
  fs.getD i (false, false)

/-- `++next_; if (next_ >= frames_.size()) next_ = 0;`. -/
def clockAdvance (i n : Nat) : Nat := if n ≤ i + 1 then 0 else i + 1

/-- The loop body of `ClockReplacer::Victim`: referenced slots lose
their ref bit and the hand advances; the first contains-and-unreferenced
slot is returned with its contains bit cleared (the hand stays on it);
absent slots are skipped. -/
def clockVictimGo : Nat → List (Bool × Bool) → Nat → Option (Nat × List (Bool × Bool))
  | 0, _, _ => none
  | fuel + 1, fs, hand =>
    match clockGet fs hand with
    | (true, true) => clockVictimGo fuel (fs.set hand (true, false)) (clockAdvance hand fs.length)
    | (true, false) => some (hand, fs.set hand (false, false))
    | (false, _) => clockVictimGo fuel fs (clockAdvance hand fs.length)

/-- `ClockReplacer::Victim`: return false when `Size() == 0`,
otherwise run the loop (claim C8 certifies the `2 * pool_size` fuel). -/
def Clock.victim (c : Clock) : Option Nat × Clock :=
  if c.size = 0 then (none, c)
  else
    match clockVictimGo (2 * c.frames.length) c.frames c.hand with
    | some (f, fs) => (some f, { frames := fs, hand := f })
    | none => (none, c)

/-- `ClockReplacer::Pin`: clear both bits. -/
def Clock.pin (c : Clock) (f : Nat) : Clock :=
  { c with frames := c.frames.set f (false, false) }

/-- `ClockReplacer::Unpin`: set both bits. -/
def Clock.unpin (c : Clock) (f : Nat) : Clock :=
  { c with frames := c.frames.set f (true, true) }

theorem clockAdvance_lt (i n : Nat) (hn : 0 < n) : clockAdvance i n < n := by
  unfold clockAdvance; split <;> omega

theorem clockAdvance_mod (i n : Nat) (h : i < n) : clockAdvance i n = (i + 1) % n := by
  unfold clockAdvance
  split
  · have : i + 1 = n := by omega
    rw [this, Nat.mod_self]
  · rw [Nat.mod_eq_of_lt (by omega)]

theorem clockGet_set_self (fs : List (Bool × Bool)) (i : Nat) (x : Bool × Bool)
    (h : i < fs.length) : clockGet (fs.set i x) i = x := by
  unfold clockGet
  rw [List.getD_eq_getElem _ _ (by simpa using h), List.getElem_set_self]

theorem clockGet_set_ne (fs : List (Bool × Bool)) (i j : Nat) (x : Bool × Bool)
    (h : i ≠ j) : clockGet (fs.set i x) j = clockGet fs j := by
  unfold clockGet
  by_cases hj : j < fs.length
  · rw [List.getD_eq_getElem _ _ (by simpa using hj), List.getD_eq_getElem _ _ hj,
      List.getElem_set_ne h]
  · rw [List.getD_eq_default _ _ (by simpa using not_lt.mp hj),
      List.getD_eq_default _ _ (not_lt.mp hj)]

theorem clock_offset_ne (hand d n : Nat) (hh : hand < n) (hd0 : 0 < d) (hdn : d < n) :
    (hand + d) % n ≠ hand := by
  intro he
  have hq2 : (hand + d) / n < 2 :=
    Nat.div_lt_of_lt_mul (by rw [Nat.mul_two]; exact Nat.add_lt_add hh hdn)
  have h1 := Nat.div_add_mod (hand + d) n
  rw [he] at h1
  have hcases : (hand + d) / n = 0 ∨ (hand + d) / n = 1 :=
    Nat.le_one_iff_eq_zero_or_eq_one.mp (Nat.lt_succ_iff.mp hq2)
  rcases hcases with h | h <;> rw [h] at h1
  · rw [Nat.mul_zero] at h1; omega
  · rw [Nat.mul_one] at h1; omega

theorem clock_offset_step (hand e n : Nat) (hh : hand < n) :
    (clockAdvance hand n + e) % n = (hand + (e + 1)) % n := by
  rw [clockAdvance_mod hand n hh, Nat.mod_add_mod]
  congr 1
  omega

/-- Walking phase 1: a contains-and-unreferenced slot at cyclic offset
`d < n` from the hand is reached (and a victim returned) within `d + 1`
loop iterations. -/
theorem clockGo_ready : ∀ (d : Nat) (fs : List (Bool × Bool)) (hand fuel : Nat),
    hand < fs.length → d < fs.length →
    clockGet fs ((hand + d) % fs.length) = (true, false) →
    d + 1 ≤ fuel →
    (clockVictimGo fuel fs hand).isSome = true := by
  intro d
  induction d with
  | zero =>
    intro fs hand fuel hh hd htgt hf
    rw [Nat.add_zero, Nat.mod_eq_of_lt hh] at htgt
    obtain ⟨fuel, rfl⟩ : ∃ g, fuel = g + 1 := ⟨fuel - 1, by omega⟩
    unfold clockVictimGo
    rw [htgt]
    rfl
  | succ e ih =>
    intro fs hand fuel hh hd htgt hf
    obtain ⟨fuel, rfl⟩ : ∃ g, fuel = g + 1 := ⟨fuel - 1, by omega⟩
    have hne : (hand + (e + 1)) % fs.length ≠ hand :=
      clock_offset_ne hand (e + 1) fs.length hh (by omega) hd
    unfold clockVictimGo
    cases hcur : clockGet fs hand with
    | mk b1 b2 =>
      cases b1
      · exact ih fs (clockAdvance hand fs.length) fuel
          (clockAdvance_lt hand fs.length (by omega)) (by omega)
          (by rw [clock_offset_step hand e fs.length hh]; exact htgt) (by omega)
      · cases b2
        · rfl
        · refine ih (fs.set hand (true, false)) (clockAdvance hand fs.length) fuel
            (by simpa using clockAdvance_lt hand fs.length (by omega))
            (by simpa using (show e < fs.length by omega)) ?_ (by omega)
          rw [List.length_set, clock_offset_step hand e fs.length hh,
            clockGet_set_ne _ _ _ _ (fun hcontra => hne hcontra.symm)]
          exact htgt

/-- Walking phase 2: any contains slot at cyclic offset `d < n` from
the hand forces a victim within `d + n + 1` loop iterations (one ref
clearing plus a full revolution in the worst case). -/
theorem clockGo_present : ∀ (d : Nat) (fs : List (Bool × Bool)) (hand fuel : Nat),
    hand < fs.length → d < fs.length →
    (clockGet fs ((hand + d) % fs.length)).1 = true →
    d + fs.length + 1 ≤ fuel →
    (clockVictimGo fuel fs hand).isSome = true := by
  intro d
  induction d with
  | zero =>
    intro fs hand fuel hh hd htgt hf
    rw [Nat.add_zero, Nat.mod_eq_of_lt hh] at htgt
    obtain ⟨fuel, rfl⟩ : ∃ g, fuel = g + 1 := ⟨fuel - 1, by omega⟩
    unfold clockVictimGo
    cases hcur : clockGet fs hand with
    | mk b1 b2 =>
      rw [hcur] at htgt
      cases b1
      · cases htgt
      · cases b2
        · rfl
        · refine clockGo_ready (fs.length - 1) (fs.set hand (true, false))
            (clockAdvance hand fs.length) fuel
            (by simpa using clockAdvance_lt hand fs.length (by omega))
            (by simp; omega) ?_ (by omega)
          rw [List.length_set, clock_offset_step hand (fs.length - 1) fs.length hh]
          have haround : (hand + (fs.length - 1 + 1)) % fs.length = hand := by
            have hlen : fs.length - 1 + 1 = fs.length := by omega
            rw [hlen, Nat.add_mod_right, Nat.mod_eq_of_lt hh]
          rw [haround, clockGet_set_self _ _ _ hh]
  | succ e ih =>
    intro fs hand fuel hh hd htgt hf
    obtain ⟨fuel, rfl⟩ : ∃ g, fuel = g + 1 := ⟨fuel - 1, by omega⟩
    have hne : (hand + (e + 1)) % fs.length ≠ hand :=
      clock_offset_ne hand (e + 1) fs.length hh (by omega) hd
    unfold clockVictimGo
    cases hcur : clockGet fs hand with
    | mk b1 b2 =>
      cases b1
      · exact ih fs (clockAdvance hand fs.length) fuel
          (clockAdvance_lt hand fs.length (by omega)) (by omega)
          (by rw [clock_offset_step hand e fs.length hh]; exact htgt) (by omega)
      · cases b2
        · rfl
        · refine ih (fs.set hand (true, false)) (clockAdvance hand fs.length) fuel
            (by simpa using clockAdvance_lt hand fs.length (by omega))
            (by simpa using (show e < fs.length by omega)) ?_
            (by rw [List.length_set]; omega)
          rw [List.length_set, clock_offset_step hand e fs.length hh,
            clockGet_set_ne _ _ _ _ (fun hcontra => hne hcontra.symm)]
          exact htgt

/-- Soundness of whatever `clockVictimGo` returns: the victim slot was
eligible (contains bit set) in the starting state, ends with both bits
cleared, and no other slot's contains bit changes. -/
theorem clockGo_sound : ∀ (fuel : Nat) (fs : List (Bool × Bool)) (hand f : Nat)
    (fs' : List (Bool × Bool)),
    hand < fs.length →
    clockVictimGo fuel fs hand = some (f, fs') →
    f < fs.length ∧ (clockGet fs f).1 = true ∧ clockGet fs' f = (false, false) ∧
      (∀ j, j ≠ f → (clockGet fs' j).1 = (clockGet fs j).1) ∧ fs'.length = fs.length := by
  intro fuel
  induction fuel with
  | zero =>
    intro fs hand f fs' hh heq
    cases heq
  | succ fuel ih =>
    intro fs hand f fs' hh heq
    unfold clockVictimGo at heq
    cases hcur : clockGet fs hand with
    | mk b1 b2 =>
      rw [hcur] at heq
      cases b1
      · have heq' : clockVictimGo fuel fs (clockAdvance hand fs.length) = some (f, fs') := heq
        exact ih fs (clockAdvance hand fs.length) f fs'
          (clockAdvance_lt hand fs.length (by omega)) heq'
      · cases b2
        · have heq' : (some (hand, fs.set hand (false, false)) :
              Option (Nat × List (Bool × Bool))) = some (f, fs') := heq
          injection heq' with heq'
          have hfh : hand = f := congrArg Prod.fst heq'
          have hfs : fs.set hand (false, false) = fs' := congrArg Prod.snd heq'
          subst hfh
          subst hfs
          refine ⟨hh, by rw [hcur], clockGet_set_self _ _ _ hh, ?_, by simp⟩
          intro j hj
          rw [clockGet_set_ne _ _ _ _ (fun hcontra => hj hcontra.symm)]
        · have heq' : clockVictimGo fuel (fs.set hand (true, false))
              (clockAdvance hand fs.length) = some (f, fs') := heq
          have hlt : clockAdvance hand fs.length < (fs.set hand (true, false)).length := by
            simpa using clockAdvance_lt hand fs.length (by omega)
          obtain ⟨h1, h2, h3, h4, h5⟩ := ih (fs.set hand (true, false))
            (clockAdvance hand fs.length) f fs' hlt heq'
          refine ⟨by simpa using h1, ?_, h3, ?_, by simpa using h5⟩
          · by_cases hfh : f = hand
            · subst hfh; rw [hcur]
            · rw [clockGet_set_ne _ _ _ _ (fun hc => hfh hc.symm)] at h2
              exact h2
          · intro j hj
            rw [h4 j hj]
            by_cases hjh : j = hand
            · subst hjh
              rw [clockGet_set_self _ _ _ hh, hcur]
            · rw [clockGet_set_ne _ _ _ _ (fun hc => hjh hc.symm)]

/-- Claim C8 (confirmed): when `Size() > 0` (and the hand is in range,
which the replacer maintains), `Victim` terminates within at most
`2 * pool_size` hand steps and returns an eligible frame, clearing its
contains bit and leaving every other slot's contains bit unchanged. -/
theorem clock_victim_terminates (c : Clock) (hh : c.hand < c.frames.length)
    (hs : 0 < c.size) :
    ∃ f fs', clockVictimGo (2 * c.frames.length) c.frames c.hand = some (f, fs') ∧
      c.victim = (some f, { frames := fs', hand := f }) ∧
      f < c.frames.length ∧
      (clockGet c.frames f).1 = true ∧
      clockGet fs' f = (false, false) ∧
      (∀ j, j ≠ f → (clockGet fs' j).1 = (clockGet c.frames j).1) ∧
      fs'.length = c.frames.length := by
  obtain ⟨a, ha, hpa⟩ := List.countP_pos_iff.mp hs
  obtain ⟨i, hi, hieq⟩ := List.mem_iff_getElem.mp ha
  have hpresent : (clockGet c.frames i).1 = true := by
    unfold clockGet
    rw [List.getD_eq_getElem _ _ hi, hieq]
    exact hpa
  have hn : 0 < c.frames.length := by omega
  set d : Nat := if c.hand ≤ i then i - c.hand else i + c.frames.length - c.hand with hd
  have hdlt : d < c.frames.length := by
    rw [hd]; split <;> omega
  have hpos : (c.hand + d) % c.frames.length = i := by
    rw [hd]; split
    · rw [show c.hand + (i - c.hand) = i by omega, Nat.mod_eq_of_lt hi]
    · rw [show c.hand + (i + c.frames.length - c.hand) = i + c.frames.length by omega,
        Nat.add_mod_right, Nat.mod_eq_of_lt hi]
  have hsome : (clockVictimGo (2 * c.frames.length) c.frames c.hand).isSome = true := by
    apply clockGo_present d c.frames c.hand (2 * c.frames.length) hh hdlt
    · rw [hpos]; exact hpresent
    · omega
  obtain ⟨⟨f, fs'⟩, heq⟩ := Option.isSome_iff_exists.mp hsome
  obtain ⟨h1, h2, h3, h4, h5⟩ := clockGo_sound _ c.frames c.hand f fs' hh heq
  refine ⟨f, fs', heq, ?_, h1, h2, h3, h4, h5⟩
  unfold Clock.victim
  rw [if_neg (by omega), heq]

/-- Witness for C8: a one-slot replacer whose slot is present and
referenced; `Victim` clears the ref on the first pass and evicts the
slot on the second. -/
theorem clock_victim_terminates_witness :
    ∃ f fs',
      clockVictimGo (2 * (Clock.mk [(true, true)] 0).frames.length)
        (Clock.mk [(true, true)] 0).frames (Clock.mk [(true, true)] 0).hand = some (f, fs') ∧
      (Clock.mk [(true, true)] 0).victim = (some f, { frames := fs', hand := f }) ∧
      f < (Clock.mk [(true, true)] 0).frames.length ∧
      (clockGet (Clock.mk [(true, true)] 0).frames f).1 = true ∧
      clockGet fs' f = (false, false) ∧
      (∀ j, j ≠ f → (clockGet fs' j).1 = (clockGet (Clock.mk [(true, true)] 0).frames j).1) ∧
      fs'.length = (Clock.mk [(true, true)] 0).frames.length :=
  clock_victim_terminates (Clock.mk [(true, true)] 0) (by decide) (by decide)

/-- Witness for C10 at a concrete pool state and page id. -/
theorem deletePage_always_deallocates_witness :
    (((BPM.init 1).deletePage 5).2.dealloc_log = (BPM.init 1).dealloc_log ++ [5]) ∧
    ((BPM.init 1).findPage 5 = none → ((BPM.init 1).deletePage 5).1 = true) ∧
    (∀ f, (BPM.init 1).findPage 5 = some f → ((BPM.init 1).getFrame f).pin_count ≠ 0 →
      ((BPM.init 1).deletePage 5).1 = false) :=
  deletePage_always_deallocates (BPM.init 1) 5

/-! # Lock manager (`lock_manager.cpp`)

The lock-table mutex serializes each call, so `LockUpgrade` is
embedded as one function from (transaction, RID, the RID's request
queue) to an outcome.  `BUSTUB_ASSERT` failures and thrown
`TransactionAbortException`s are explicit outcome constructors;
reaching `cv_.wait` with an initially false predicate (which suspends
the thread until another thread intervenes) is the `blocked`
outcome. -/

inductive TxnState | growing | shrinking | committed | aborted
deriving DecidableEq, Repr

inductive IsoLevel | readUncommitted | readCommitted | repeatableRead
deriving DecidableEq, Repr

/-- The view of `Transaction` used by the lock manager.  RIDs are
abstracted to `Nat`. -/
structure Txn where
  id : Nat
  state : TxnState
  iso : IsoLevel
  sharedSet : List Nat
  exclSet : List Nat
deriving DecidableEq, Repr

inductive LockMode | shared | exclusive
deriving DecidableEq, Repr

/-- `LockManager::LockRequest`. -/
structure LockRequest where
  txn_id : Nat
  mode : LockMode
  granted : Bool
deriving DecidableEq, Repr

/-- `LockManager::LockRequestQueue` (the condition variable itself
carries no state). -/
structure LRQueue where
  queue : List LockRequest
  upgrading : Bool
deriving DecidableEq, Repr

/-- `AbortReason` (as listed in the error table; the source raises
only a subset of these). -/
inductive AbortReason
  | lockOnShrinking
  | locksharedOnReadUncommitted
  | upgradeOnUnshared
  | upgradeConflict
  | deadlock
deriving DecidableEq, Repr

/-- Outcome of a lock-manager call: normal return, a thrown
`TransactionAbortException` (with the transaction moved to ABORTED by
`AbortImplicitly`), a `BUSTUB_ASSERT` failure, or suspension on the
condition variable. -/
inductive LockOutcome
  | ok (res : Bool) (txn : Txn) (q : LRQueue)
  | abortThrow (r : AbortReason) (txn : Txn) (q : LRQueue)
  | assertFail (msg : String) (txn : Txn) (q : LRQueue)
  | blocked (txn : Txn) (q : LRQueue)
deriving DecidableEq, Repr

/-- The typed abort reason of an outcome, if any. -/
def LockOutcome.reason : LockOutcome → Option AbortReason
  | .abortThrow r _ _ => some r
  | _ => none

/-- The transaction state recorded in an outcome. -/
def LockOutcome.txnState : LockOutcome → TxnState
  | .ok _ t _ => t.state
  | .abortThrow _ t _ => t.state
  | .assertFail _ t _ => t.state
  | .blocked t _ => t.state

/-- `Transaction::IsSharedLocked`. -/
def Txn.isSharedLocked (t : Txn) (rid : Nat) : Bool := rid ∈ t.sharedSet

/-- `Transaction::IsExclusiveLocked`. -/
def Txn.isExclusiveLocked (t : Txn) (rid : Nat) : Bool := rid ∈ t.exclSet

/-- Modelled from the spec: `LockManager::IsLockCompatible` is declared
in `lock_manager.h`, which is not part of the sources; the spec states
a request is grantable iff every granted request ahead of it in the
queue is compatible with it (shared–shared is the only compatible
pair). -/
def isLockCompatible (q : LRQueue) (req : LockRequest) : Bool :=
  (q.queue.takeWhile (fun r => r.txn_id ≠ req.txn_id)).all
    (fun r => !r.granted || (r.mode = LockMode.shared && req.mode = LockMode.shared))

/-- Replace the request of transaction `tid` in the queue. -/
def queueSetReq (l : List LockRequest) (tid : Nat) (r : LockRequest) : List LockRequest :=
  l.map (fun x => if x.txn_id = tid then r else x)

/-- `LockManager::LockUpgrade`.  The source checks SHRINKING, then
idempotence on an exclusive lock, then a pending upgrade
(`UPGRADE_CONFLICT`), sets `upgrading_`, and looks the transaction's
request up in the queue; the three `BUSTUB_ASSERT`s demand that a
granted SHARED request exists.  Only then does it convert the request
and wait. -/
def lockUpgrade (txn : Txn) (rid : Nat) (q : LRQueue) : LockOutcome :=
  if txn.state = TxnState.shrinking then
    .abortThrow .lockOnShrinking { txn with state := .aborted } q
  else if txn.isExclusiveLocked rid then .ok true txn q
  else if q.upgrading then
    .abortThrow .upgradeConflict { txn with state := .aborted } q
  else
    let q := { q with upgrading := true }
    match q.queue.find? (fun r => r.txn_id = txn.id) with
    | none => .assertFail "Cannot find lock request when upgrade lock" txn q
    | some r =>
      if !r.granted then .assertFail "Lock request has not be granted" txn q
      else if r.mode ≠ LockMode.shared then
        .assertFail "Lock request is not locked in SHARED mode" txn q
      else if !txn.isSharedLocked rid then
        .assertFail "Rid is not shared locked by transaction when upgrade" txn q
      else
        let r := { r with mode := LockMode.exclusive, granted := false }
        let q := { q with queue := queueSetReq q.queue txn.id r }
        if !(isLockCompatible q r || txn.state = TxnState.aborted) then .blocked txn q
        else if txn.state = TxnState.aborted then
          .abortThrow .deadlock { txn with state := .aborted } q
        else
          let r := { r with granted := true }
          let q := { queue := queueSetReq q.queue txn.id r, upgrading := false }
          .ok true { txn with sharedSet := txn.sharedSet.erase rid,
                              exclSet := rid :: txn.exclSet } q

/-- A growing repeatable-read transaction holding no locks at all. -/
def lockFreeTxn : Txn :=
  { id := 0, state := .growing, iso := .repeatableRead, sharedSet := [], exclSet := [] }

/-- Claim C7 counterexample: for `lockFreeTxn` (not SHRINKING, holding
neither an exclusive nor a shared lock on RID 0) and an empty queue,
`LockUpgrade` does not raise the typed abort `UPGRADE_ON_UNSHARED` and
does not move the transaction to ABORTED: it trips the
`BUSTUB_ASSERT` "Cannot find lock request when upgrade lock". -/
theorem lockUpgrade_unshared_no_typed_abort :
    ¬ ((lockUpgrade lockFreeTxn 0 { queue := [], upgrading := false }).reason =
        some AbortReason.upgradeOnUnshared ∧
      (lockUpgrade lockFreeTxn 0 { queue := [], upgrading := false }).txnState =
        TxnState.aborted) := by decide

/-- Claim C7 (corrected): under the claim's preconditions — with the
queue's upgrade flag clear and no request of the transaction queued on
the RID (it holds no shared lock and is not suspended) — `LockUpgrade`
fails the internal assertion "Cannot find lock request when upgrade
lock" instead of raising `UPGRADE_ON_UNSHARED`, and the transaction
keeps its state (no ABORTED transition). -/
theorem lockUpgrade_unshared_assert_fails (txn : Txn) (rid : Nat) (q : LRQueue)
    (h1 : txn.state ≠ TxnState.shrinking)
    (h2 : txn.isExclusiveLocked rid = false)
    (_h3 : txn.isSharedLocked rid = false)
    (h4 : q.upgrading = false)
    (h5 : ∀ r ∈ q.queue, r.txn_id ≠ txn.id) :
    lockUpgrade txn rid q =
      .assertFail "Cannot find lock request when upgrade lock" txn
        { q with upgrading := true } ∧
    (lockUpgrade txn rid q).txnState = txn.state := by
  have hfind : q.queue.find? (fun r => r.txn_id = txn.id) = none := by
    rw [List.find?_eq_none]
    intro r hr
    simpa using h5 r hr
  have hstep : lockUpgrade txn rid q =
      .assertFail "Cannot find lock request when upgrade lock" txn
        { q with upgrading := true } := by
    unfold lockUpgrade
    rw [if_neg h1, h2, if_neg (by simp), h4, if_neg (by simp)]
    dsimp only
    rw [hfind]
  exact ⟨hstep, by rw [hstep]; rfl⟩

/-- Witness for C7's corrected statement at `lockFreeTxn` and an empty
queue. -/
theorem lockUpgrade_unshared_assert_fails_witness :
    lockUpgrade lockFreeTxn 0 { queue := [], upgrading := false } =
      .assertFail "Cannot find lock request when upgrade lock" lockFreeTxn
        { queue := [], upgrading := true } ∧
    (lockUpgrade lockFreeTxn 0 { queue := [], upgrading := false }).txnState =
      lockFreeTxn.state :=
  lockUpgrade_unshared_assert_fails lockFreeTxn 0 { queue := [], upgrading := false }
    (by decide) (by decide) (by decide) (by decide) (by intro r hr; cases hr)

/-! # B+Tree index (`b_plus_tree.cpp`, `b_plus_tree_leaf_page.cpp`,
`b_plus_tree_internal_page.cpp`)

Pages are kept in an explicit page store (`pages : List (Int × BNode)`,
keyed by page id); the buffer pool is only a paging layer underneath
the tree algorithms, so fetch/unpin/latch calls are identity on this
state and `NewPage` allocates the next page id.  Keys and values are
`Nat` (the source's `GenericKey`/`RID` under a total order comparator);
`-1` is `INVALID_PAGE_ID`.  In an internal page the key of entry 0 is
unused ("the first key should always be invalid"): it is modelled as
`Option Nat`, `none` standing for the never-written zeroed slot, and
reads of key slots go through `getD 0` mirroring the raw memory read
of a zeroed page. -/

/-- `BPlusTreeLeafPage`: sorted `(key, value)` array, parent pointer,
`next_page_id_`. -/
structure LeafNode where
  kvs : List (Nat × Nat)
  parent : Int
  next : Int
deriving DecidableEq, Repr

/-- `BPlusTreeInternalPage`: `(key, child page id)` array with the
first key slot unused. -/
structure InternalNode where
  entries : List (Option Nat × Int)
  parent : Int
deriving DecidableEq, Repr

inductive BNode
  | leaf (lf : LeafNode)
  | internal (nd : InternalNode)
deriving DecidableEq, Repr

/-- The tree state: the page store, `root_page_id_`, the buffer pool's
next page id, and the two size limits. -/
structure TreeState where
  pages : List (Int × BNode)
  root : Int
  nextPid : Int
  leafMax : Nat
  internalMax : Nat
deriving DecidableEq, Repr

def getNode (s : TreeState) (pid : Int) : Option BNode := s.pages.lookup pid

def setNodeList (ps : List (Int × BNode)) (pid : Int) (n : BNode) : List (Int × BNode) :=
  ps.map (fun e => if e.1 = pid then (pid, n) else e)

def setNode (s : TreeState) (pid : Int) (n : BNode) : TreeState :=
  { s with pages := setNodeList s.pages pid n }

def addPage (s : TreeState) (pid : Int) (n : BNode) : TreeState :=
  { s with pages := s.pages ++ [(pid, n)] }

/-- `BPlusTreePage::GetParentPageId`. -/
def nodeParent : BNode → Int
  | .leaf lf => lf.parent
  | .internal nd => nd.parent

/-- `BPlusTreePage::SetParentPageId`, through the page store. -/
def setParent (s : TreeState) (pid ppid : Int) : TreeState :=
  match getNode s pid with
  | some (.leaf lf) => setNode s pid (.leaf { lf with parent := ppid })
  | some (.internal nd) => setNode s pid (.internal { nd with parent := ppid })
  | none => s

/-- Leaf `KeyAt` (raw array read; out-of-range reads the zeroed
default, which never happens on the paths the source takes). -/
def keyAtL (kvs : List (Nat × Nat)) (i : Nat) : Nat := (kvs.getD i (0, 0)).1

def keysOfL (kvs : List (Nat × Nat)) : List Nat := kvs.map Prod.fst

/-- Internal `KeyAt` (entry 0's never-written key slot reads as the
zeroed default). -/
def keyAtI (entries : List (Option Nat × Int)) (i : Nat) : Nat :=
  ((entries.getD i (none, -1)).1).getD 0

/-- Internal `ValueAt`. -/
def valueAtI (entries : List (Option Nat × Int)) (i : Nat) : Int :=
  (entries.getD i (none, -1)).2

/-! ## Leaf page operations -/

/-- The backward shift loop of `BPlusTreeLeafPage::Insert` on the
reversed array: place `(k, v)` right after the first element (from the
back) whose key is `< k`; `none` when every key is `≥ k`. -/
def leafInsertFromBack (k v : Nat) : List (Nat × Nat) → Option (List (Nat × Nat))
  | [] => none
  | a :: rest =>
    if k > a.1 then some ((k, v) :: a :: rest)
    else (leafInsertFromBack k v rest).map (a :: ·)

/-- `BPlusTreeLeafPage::Insert`: append when empty or `k` beats the
last key; otherwise run the shift loop; if it never breaks, either
prepend (`k` below the first key) or — the source's quirk when `k`
equals the first key — duplicate the head slot. -/
def leafInsert (k v : Nat) (kvs : List (Nat × Nat)) : List (Nat × Nat) :=
  if kvs.length = 0 ∨ k > keyAtL kvs (kvs.length - 1) then kvs ++ [(k, v)]
  else
    match leafInsertFromBack k v kvs.reverse with
    | some r => r.reverse
    | none =>
      if k < keyAtL kvs 0 then (k, v) :: kvs
      else
        match kvs with
        | [] => [(k, v)]
        | a :: _ => a :: kvs

/-- The binary-search loop of `BPlusTreeLeafPage::Lookup`.  `low` and
`high` are `Nat` here: the branch `high = mid - 1` is only reached when
`k < key(mid)`, and the entry guard `¬(k < key(0))` forces `mid ≥ 1`
there, so the C++ `int` arithmetic never goes negative. -/
def leafLookupGo (kvs : List (Nat × Nat)) (k : Nat) : Nat → Nat → Nat → Option Nat
  | 0, _, _ => none
  | fuel + 1, low, high =>
    if low ≤ high then
      let mid := low + (high - low) / 2
      if k > keyAtL kvs mid then leafLookupGo kvs k fuel (mid + 1) high
      else if k < keyAtL kvs mid then leafLookupGo kvs k fuel low (mid - 1)
      else some (kvs.getD mid (0, 0)).2
    else none

/-- `BPlusTreeLeafPage::Lookup`: range guard, then binary search. -/
def leafLookup (kvs : List (Nat × Nat)) (k : Nat) : Option Nat :=
  if kvs.length = 0 ∨ k < keyAtL kvs 0 ∨ k > keyAtL kvs (kvs.length - 1) then none
  else leafLookupGo kvs k (kvs.length + 1) 0 (kvs.length - 1)

/-! ## Internal page operations -/

/-- The binary-search loop of `BPlusTreeInternalPage::Lookup`
(`while (left < right && left + 1 != right)`), with fuel; on exit it
returns `array_[left].second`.  All indices stay `≥ 1`. -/
def internalLookupGo (entries : List (Option Nat × Int)) (k : Nat) :
    Nat → Nat → Nat → Int
  | 0, left, _ => valueAtI entries left
  | fuel + 1, left, right =>
    if left < right ∧ left + 1 ≠ right then
      let mid := left + (right - left) / 2
      if k < keyAtI entries mid then internalLookupGo entries k fuel left mid
      else if k > keyAtI entries mid then internalLookupGo entries k fuel mid right
      else valueAtI entries mid
    else valueAtI entries left

/-- `BPlusTreeInternalPage::Lookup`: the two boundary shortcuts, then
the loop on `[1, size - 1]`. -/
def internalLookup (entries : List (Option Nat × Int)) (k : Nat) : Int :=
  if k < keyAtI entries 1 then valueAtI entries 0
  else if k ≥ keyAtI entries (entries.length - 1) then valueAtI entries (entries.length - 1)
  else internalLookupGo entries k entries.length 1 (entries.length - 1)

/-- The backward shift loop of `BPlusTreeInternalPage::Insert` on the
reversed array (same shape as the leaf one; key slots are read through
`getD 0`). -/
def internalInsertFromBack (k : Nat) (v : Int) :
    List (Option Nat × Int) → Option (List (Option Nat × Int))
  | [] => none
  | a :: rest =>
    if k > a.1.getD 0 then some ((some k, v) :: a :: rest)
    else (internalInsertFromBack k v rest).map (a :: ·)

/-- `BPlusTreeInternalPage::Insert` (the sorted insert used on the
split halves). -/
def internalInsert (k : Nat) (v : Int) (entries : List (Option Nat × Int)) :
    List (Option Nat × Int) :=
  if entries.length = 0 ∨ k > keyAtI entries (entries.length - 1) then entries ++ [(some k, v)]
  else
    match internalInsertFromBack k v entries.reverse with
    | some r => r.reverse
    | none =>
      if k < keyAtI entries 0 then (some k, v) :: entries
      else
        match entries with
        | [] => [(some k, v)]
        | a :: _ => a :: entries

/-- The backward scan of `BPlusTreeInternalPage::InsertNodeAfter` on
the reversed array: place `(k, newV)` right after the last entry whose
value is `oldV`. -/
def insertAfterFromBack (oldV : Int) (k : Nat) (newV : Int) :
    List (Option Nat × Int) → Option (List (Option Nat × Int))
  | [] => none
  | a :: rest =>
    if a.2 = oldV then some ((some k, newV) :: a :: rest)
    else (insertAfterFromBack oldV k newV rest).map (a :: ·)

/-- `BPlusTreeInternalPage::InsertNodeAfter`.  When `oldV` is absent
the loop shifts every slot right without inserting or growing the
size, leaving the head duplicated (dead code under the tree's
invariants, transcribed faithfully). -/
def insertNodeAfter (oldV : Int) (k : Nat) (newV : Int)
    (entries : List (Option Nat × Int)) : List (Option Nat × Int) :=
  match insertAfterFromBack oldV k newV entries.reverse with
  | some r => r.reverse
  | none =>
    match entries with
    | [] => []
    | a :: _ => a :: entries.dropLast

/-! ## Tree operations (`b_plus_tree.cpp`) -/

/-- The descent loop of `BPlusTree::FindLeafPage` (read path and write
path navigate identically; latching is a no-op here).  A missing page
would be the fatal OOM path of the source and yields `none`. -/
def findLeafGo (ps : List (Int × BNode)) (k : Nat) : Nat → Int → Option Int
  | 0, _ => none
  | fuel + 1, pid =>
    match ps.lookup pid with
    | some (.leaf _) => some pid
    | some (.internal nd) => findLeafGo ps k fuel (internalLookup nd.entries k)
    | none => none

/-- `BPlusTree::FindLeafPage` with `leftMost = false`: null on an
empty tree, otherwise descend from the root. -/
def findLeafB (s : TreeState) (k : Nat) : Option Int :=
  if s.root = -1 then none
  else findLeafGo s.pages k (s.pages.length + 1) s.root

/-- Detectable undefined behaviour in the embedding. -/
inductive MemErr | nullDeref
deriving DecidableEq, Repr

/-- `BPlusTree::GetValue`.  The source calls `node->GetData()` on the
pointer returned by `FindLeafPage` *before* the `leaf != nullptr`
check, so the empty-tree `nullptr` is dereferenced: that path is the
`nullDeref` error.  On a non-empty tree the leaf is consulted via
`Lookup`. -/
def getValueB (s : TreeState) (k : Nat) : Except MemErr Bool :=
  match findLeafB s k with
  | none => Except.error MemErr.nullDeref
  | some lid =>
    match getNode s lid with
    | some (.leaf lf) => Except.ok (leafLookup lf.kvs k).isSome
    | _ => Except.error MemErr.nullDeref

/-- `BPlusTree::StartNewTree`: allocate the root leaf and insert. -/
def startNewTree (s : TreeState) (k v : Nat) : TreeState :=
  let p := s.nextPid
  let s := { s with nextPid := p + 1, root := p }
  addPage s p (.leaf { kvs := leafInsert k v [], parent := -1, next := -1 })

/-- `BPlusTree::InsertIntoParent`, with fuel for the recursion up the
tree (bounded by the height).  Splitting an internal page reassigns
the moved children's parent pointers (`CopyNFrom`), inserts the new
separator into the half chosen by `mark`, applies the source's
three-way parent fixup for `new_node`, and recurses with the first key
of the new internal page. -/
def insertIntoParent : Nat → TreeState → Int → Nat → Int → TreeState
  | 0, s, _, _, _ => s
  | fuel + 1, s, oldPid, key, newPid =>
    match getNode s oldPid with
    | none => s
    | some old =>
      if nodeParent old = -1 then
        -- old is the root: NewPage(&root_page_id_), PopulateNewRoot
        let pR := s.nextPid
        let s := { s with nextPid := pR + 1, root := pR }
        let s := addPage s pR (.internal { entries := [(none, oldPid), (some key, newPid)],
                                           parent := -1 })
        let s := setParent s oldPid pR
        setParent s newPid pR
      else
        let ppid := nodeParent old
        match getNode s ppid with
        | some (.internal pn) =>
          if pn.entries.length < s.internalMax then
            let s := setNode s ppid (.internal
              { pn with entries := insertNodeAfter oldPid key newPid pn.entries })
            setParent s newPid ppid
          else
            let mark := decide (key > keyAtI pn.entries (s.internalMax / 2))
            let pN := s.nextPid
            let s := { s with nextPid := pN + 1 }
            let size := pn.entries.length
            let half := if mark then size / 2 else (size + 1) / 2
            let moved := pn.entries.drop (size - half)
            let kept := pn.entries.take (size - half)
            let niEntries := if mark then internalInsert key newPid moved else moved
            let pEntries := if mark then kept else internalInsert key newPid kept
            let s := setNode s ppid (.internal { pn with entries := pEntries })
            let s := addPage s pN (.internal { entries := niEntries, parent := -1 })
            -- CopyNFrom adopts the moved children
            let s := (moved.map Prod.snd).foldl (fun t c => setParent t c pN) s
            let niKey0 := keyAtI niEntries 0
            let s :=
              if key < niKey0 then setParent s newPid ppid
              else if key = niKey0 then setParent s newPid pN
              else setParent (setParent s newPid pN) oldPid pN
            insertIntoParent fuel s ppid (keyAtI niEntries 0) pN
        | _ => s

/-- `BPlusTree::InsertIntoLeaf`: descend, reject a duplicate key,
insert in place when there is room, otherwise split (`mark` chooses
the half receiving the new pair), thread the next-leaf chain, and call
`InsertIntoParent` with the new leaf's first key. -/
def insertIntoLeaf (s : TreeState) (k v : Nat) : Bool × TreeState :=
  match findLeafB s k with
  | none => (false, s)
  | some lid =>
    match getNode s lid with
    | some (.leaf lf) =>
      match leafLookup lf.kvs k with
      | some _ => (false, s)
      | none =>
        if lf.kvs.length < s.leafMax then
          (true, setNode s lid (.leaf { lf with kvs := leafInsert k v lf.kvs }))
        else
          let mark := decide (k > keyAtL lf.kvs (s.leafMax / 2))
          let pN := s.nextPid
          let s := { s with nextPid := pN + 1 }
          let size := lf.kvs.length
          let half := if mark then size / 2 else (size + 1) / 2
          let moved := lf.kvs.drop (size - half)
          let kept := lf.kvs.take (size - half)
          let keptKvs := if mark then kept else leafInsert k v kept
          let movedKvs := if mark then leafInsert k v moved else moved
          let s := setNode s lid (.leaf { lf with kvs := keptKvs, next := pN })
          let s := addPage s pN (.leaf { kvs := movedKvs, parent := -1, next := lf.next })
          (true, insertIntoParent (s.pages.length + 1) s lid (keyAtL movedKvs 0) pN)
    | _ => (false, s)

/-- `BPlusTree::Insert`: start a new tree on the first insert,
otherwise insert into the target leaf. -/
def bInsert (s : TreeState) (k v : Nat) : Bool × TreeState :=
  if s.root = -1 then (true, startNewTree s k v)
  else insertIntoLeaf s k v

/-- An empty tree with `leaf_max_size = 4`, `internal_max_size = 4`
(page id 0 is the header page, so tree pages start at 1). -/
def emptyTree4 : TreeState :=
  { pages := [], root := -1, nextPid := 1, leafMax := 4, internalMax := 4 }

/-- The tree after `Insert 1, 2, 3, 4, 5` (values `10 k`). -/
def treeAfter15 : TreeState :=
  (bInsert (bInsert (bInsert (bInsert (bInsert emptyTree4 1 10).2 2 20).2 3 30).2
    4 40).2 5 50).2

/-- Claim C4 (confirmed): inserting 1..5 into an empty tree with
`leaf_max_size = 4` yields a root internal page with exactly two
children — the invalid first key slot over the left leaf and separator
key 3 over the right leaf — where the left leaf holds exactly [1, 2],
its next-leaf pointer is the right leaf, and the right leaf holds
exactly [3, 4, 5]. -/
theorem insert_one_to_five_shape :
    ∃ pL pR,
      getNode treeAfter15 treeAfter15.root =
        some (BNode.internal { entries := [(none, pL), (some 3, pR)], parent := -1 }) ∧
      (∃ lf, getNode treeAfter15 pL = some (BNode.leaf lf) ∧
        keysOfL lf.kvs = [1, 2] ∧ lf.next = pR) ∧
      (∃ rf, getNode treeAfter15 pR = some (BNode.leaf rf) ∧
        keysOfL rf.kvs = [3, 4, 5]) :=
  ⟨1, 2, by decide,
    ⟨{ kvs := [(1, 10), (2, 20)], parent := 3, next := 2 }, by decide, by decide, by decide⟩,
    ⟨{ kvs := [(3, 30), (4, 40), (5, 50)], parent := 3, next := -1 }, by decide, by decide⟩⟩

/-- Claim C9 (code bug): on an empty tree `FindLeafPage` returns null,
and `GetValue` dereferences that null (`node->GetData()` runs before
the `leaf != nullptr` check) instead of returning false. -/
theorem getValue_empty_tree_null_deref (s : TreeState) (k : Nat) (h : s.root = -1) :
    findLeafB s k = none ∧ getValueB s k = Except.error MemErr.nullDeref := by
  have hf : findLeafB s k = none := by unfold findLeafB; rw [if_pos h]
  refine ⟨hf, ?_⟩
  unfold getValueB
  rw [hf]

/-- Witness for C9 at the empty tree and key 42. -/
theorem getValue_empty_tree_null_deref_witness :
    findLeafB emptyTree4 42 = none ∧
    getValueB emptyTree4 42 = Except.error MemErr.nullDeref :=
  getValue_empty_tree_null_deref emptyTree4 42 (by decide)

/-! ## B+Tree well-formedness (claim C5)

The B+Tree invariants the implementation maintains: leaf key arrays
strictly ascending; internal pages with at least two entries and
strictly ascending separator keys; every key of the subtree under
child `j` lies in `[key_j, key_{j+1})` where `key_0` is the node's own
lower bound and `key_size` its upper bound.  The fuel bounds the tree
height (any fuel at least the height works; the page count + 1 always
suffices). -/

/-- `lo ≤ k` and `k < hi` with `none` as no constraint. -/
def boundOK (lo hi : Option Nat) (k : Nat) : Bool :=
  (match lo with
   | none => true
   | some b => decide (b ≤ k)) &&
  (match hi with
   | none => true
   | some b => decide (k < b))

/-- Strictly ascending list of keys. -/
def strictAsc : List Nat → Bool
  | [] => true
  | [_] => true
  | a :: b :: t => decide (a < b) && strictAsc (b :: t)

/-- The separator keys of an internal page (entries 1 and up, key
slots read through the zero default). -/
def sepKeysOf (entries : List (Option Nat × Int)) : List Nat :=
  (entries.drop 1).map (fun e => e.1.getD 0)

/-- Lower key bound of the subtree under child `j`. -/
def childLo (entries : List (Option Nat × Int)) (lo : Option Nat) (j : Nat) : Option Nat :=
  if j = 0 then lo else some (keyAtI entries j)

/-- Upper key bound of the subtree under child `j`. -/
def childHi (entries : List (Option Nat × Int)) (hi : Option Nat) (j : Nat) : Option Nat :=
  if j + 1 = entries.length then hi else some (keyAtI entries (j + 1))

/-- Well-formedness of the subtree rooted at `pid`, all keys within
`[lo, hi)`. -/
def wfNode (ps : List (Int × BNode)) : Nat → Int → Option Nat → Option Nat → Bool
  | 0, _, _, _ => false
  | fuel + 1, pid, lo, hi =>
    match ps.lookup pid with
    | some (.leaf lf) =>
      strictAsc (keysOfL lf.kvs) && (keysOfL lf.kvs).all (boundOK lo hi)
    | some (.internal nd) =>
      decide (2 ≤ nd.entries.length) && strictAsc (sepKeysOf nd.entries) &&
        (sepKeysOf nd.entries).all (boundOK lo hi) &&
        (List.range nd.entries.length).all (fun j =>
          wfNode ps fuel (valueAtI nd.entries j) (childLo nd.entries lo j)
            (childHi nd.entries hi j))
    | none => false

/-- The multiset of keys stored in the subtree rooted at `pid`. -/
def nodeKeys (ps : List (Int × BNode)) : Nat → Int → List Nat
  | 0, _ => []
  | fuel + 1, pid =>
    match ps.lookup pid with
    | some (.leaf lf) => keysOfL lf.kvs
    | some (.internal nd) =>
      ((List.range nd.entries.length).map
        (fun j => nodeKeys ps fuel (valueAtI nd.entries j))).flatten
    | none => []

theorem strictAsc_chain' : ∀ l : List Nat, strictAsc l = true ↔ List.Chain' (· < ·) l := by
  intro l
  induction l with
  | nil => simp [strictAsc]
  | cons a t ih =>
    cases t with
    | nil => simp [strictAsc]
    | cons b t' =>
      rw [List.chain'_cons, ← ih]
      show (decide (a < b) && strictAsc (b :: t')) = true ↔ _
      rw [Bool.and_eq_true, decide_eq_true_eq]

theorem strictAsc_getD (l : List Nat) (hs : strictAsc l = true) {i j : Nat}
    (hij : i < j) (hj : j < l.length) : l.getD i 0 < l.getD j 0 := by
  have hp := List.chain'_iff_pairwise.mp ((strictAsc_chain' l).mp hs)
  have hlt := List.pairwise_iff_getElem.mp hp i j (by omega) hj hij
  rw [List.getD_eq_getElem _ _ (show i < l.length by omega), List.getD_eq_getElem _ _ hj]
  exact hlt

theorem keysOfL_getD (kvs : List (Nat × Nat)) (i : Nat) :
    (keysOfL kvs).getD i 0 = keyAtL kvs i := by
  unfold keysOfL keyAtL
  by_cases h : i < kvs.length
  · rw [List.getD_eq_getElem _ _ (by simpa using h), List.getD_eq_getElem _ _ h,
      List.getElem_map]
  · rw [List.getD_eq_default _ _ (by simpa using not_lt.mp h),
      List.getD_eq_default _ _ (not_lt.mp h)]

theorem sepKeysOf_length (entries : List (Option Nat × Int)) :
    (sepKeysOf entries).length = entries.length - 1 := by
  simp [sepKeysOf]

theorem sepKeysOf_getD (entries : List (Option Nat × Int)) (j : Nat) :
    (sepKeysOf entries).getD j 0 = keyAtI entries (j + 1) := by
  unfold sepKeysOf keyAtI
  by_cases h : j + 1 < entries.length
  · have h1 : j < ((entries.drop 1).map (fun e => e.1.getD 0)).length := by
      simp [List.length_drop]; omega
    rw [List.getD_eq_getElem _ _ h1, List.getD_eq_getElem _ _ h, List.getElem_map,
      List.getElem_drop]
    congr 3
    omega
  · rw [List.getD_eq_default _ _ (by simp [List.length_drop]; omega),
      List.getD_eq_default _ _ (by omega)]
    rfl

theorem keyAtI_lt (entries : List (Option Nat × Int))
    (hs : strictAsc (sepKeysOf entries) = true) {i j : Nat}
    (h1 : 1 ≤ i) (hij : i < j) (hj : j < entries.length) :
    keyAtI entries i < keyAtI entries j := by
  obtain ⟨i', rfl⟩ : ∃ i', i = i' + 1 := ⟨i - 1, by omega⟩
  obtain ⟨j', rfl⟩ : ∃ j', j = j' + 1 := ⟨j - 1, by omega⟩
  rw [← sepKeysOf_getD, ← sepKeysOf_getD]
  exact strictAsc_getD _ hs (by omega) (by rw [sepKeysOf_length]; omega)

theorem keyAtI_le (entries : List (Option Nat × Int))
    (hs : strictAsc (sepKeysOf entries) = true) {i j : Nat}
    (h1 : 1 ≤ i) (hij : i ≤ j) (hj : j < entries.length) :
    keyAtI entries i ≤ keyAtI entries j := by
  rcases Nat.lt_or_ge i j with h | h
  · exact Nat.le_of_lt (keyAtI_lt entries hs h1 h hj)
  · have : i = j := by omega
    rw [this]

theorem mem_keysOfL (kvs : List (Nat × Nat)) (k : Nat) :
    k ∈ keysOfL kvs ↔ ∃ i, i < kvs.length ∧ keyAtL kvs i = k := by
  constructor
  · intro h
    obtain ⟨n, hn, heq⟩ := List.mem_iff_getElem.mp h
    have hn' : n < kvs.length := by simpa [keysOfL] using hn
    refine ⟨n, hn', ?_⟩
    rw [← keysOfL_getD, List.getD_eq_getElem _ _ hn, heq]
  · rintro ⟨i, hi, heq⟩
    rw [← keysOfL_getD] at heq
    have hi' : i < (keysOfL kvs).length := by simpa [keysOfL]
    rw [List.getD_eq_getElem _ _ hi'] at heq
    exact List.mem_iff_getElem.mpr ⟨i, hi', heq⟩

/-- The leaf binary search finds a present key: if `k` sits at index
`i` of a strictly ascending leaf and `[low, high]` brackets `i`, the
loop returns a value. -/
theorem leafLookupGo_found : ∀ (fuel : Nat) (kvs : List (Nat × Nat)) (k low high i : Nat),
    strictAsc (keysOfL kvs) = true →
    low ≤ i → i ≤ high → high < kvs.length →
    keyAtL kvs i = k →
    high + 1 - low ≤ fuel →
    ∃ v, leafLookupGo kvs k fuel low high = some v := by
  intro fuel
  induction fuel with
  | zero =>
    intro kvs k low high i hs h1 h2 h3 hk h5
    exfalso
    omega
  | succ fuel ih =>
    intro kvs k low high i hs h1 h2 h3 hk h5
    unfold leafLookupGo
    rw [if_pos (show low ≤ high by omega)]
    dsimp only
    set mid := low + (high - low) / 2 with hmid
    have hmid1 : low ≤ mid := by omega
    have hmid2 : mid ≤ high := by omega
    by_cases hgt : k > keyAtL kvs mid
    · rw [if_pos hgt]
      have himid : mid < i := by
        by_contra hc
        push_neg at hc
        rcases Nat.lt_or_ge i mid with h | h
        · have hmono := strictAsc_getD (keysOfL kvs) hs (i := i) (j := mid) h
            (by simpa [keysOfL] using (by omega : mid < kvs.length))
          rw [keysOfL_getD, keysOfL_getD, hk] at hmono
          omega
        · have hieq : i = mid := by omega
          rw [hieq] at hk
          omega
      exact ih kvs k (mid + 1) high i hs (by omega) h2 h3 hk (by omega)
    · rw [if_neg hgt]
      by_cases hlt : k < keyAtL kvs mid
      · rw [if_pos hlt]
        have himid : i < mid := by
          by_contra hc
          push_neg at hc
          rcases Nat.lt_or_ge mid i with h | h
          · have hmono := strictAsc_getD (keysOfL kvs) hs (i := mid) (j := i) h
              (by simpa [keysOfL] using (by omega : i < kvs.length))
            rw [keysOfL_getD, keysOfL_getD, hk] at hmono
            omega
          · have hieq : i = mid := by omega
            rw [hieq] at hk
            omega
        exact ih kvs k low (mid - 1) i hs h1 (by omega) (by omega) hk (by omega)
      · rw [if_neg hlt]
        exact ⟨_, rfl⟩

/-- `BPlusTreeLeafPage::Lookup` finds every key present in a strictly
ascending leaf. -/
theorem leafLookup_found (kvs : List (Nat × Nat)) (k : Nat)
    (hs : strictAsc (keysOfL kvs) = true) (hk : k ∈ keysOfL kvs) :
    ∃ v, leafLookup kvs k = some v := by
  obtain ⟨i, hi, heq⟩ := (mem_keysOfL kvs k).mp hk
  have hlen : kvs.length ≠ 0 := by omega
  have hk0 : keyAtL kvs 0 ≤ k := by
    rcases Nat.eq_zero_or_pos i with h | h
    · rw [← heq, h]
    · have hmono := strictAsc_getD (keysOfL kvs) hs (i := 0) (j := i) h
        (by simpa [keysOfL] using hi)
      rw [keysOfL_getD, keysOfL_getD, heq] at hmono
      omega
  have hklast : k ≤ keyAtL kvs (kvs.length - 1) := by
    rcases Nat.lt_or_ge i (kvs.length - 1) with h | h
    · have hmono := strictAsc_getD (keysOfL kvs) hs (i := i) (j := kvs.length - 1) h
        (by simpa [keysOfL] using (by omega : kvs.length - 1 < kvs.length))
      rw [keysOfL_getD, keysOfL_getD, heq] at hmono
      omega
    · have hieq : i = kvs.length - 1 := by omega
      rw [← heq, hieq]
  unfold leafLookup
  rw [if_neg (by push_neg; exact ⟨hlen, by omega, by omega⟩)]
  exact leafLookupGo_found (kvs.length + 1) kvs k 0 (kvs.length - 1) i hs (by omega)
    (by omega) (by omega) heq (by omega)

/-- The internal binary-search loop returns the child whose separator
range `[key_j, key_{j+1})` holds `k`. -/
theorem internalLookupGo_spec : ∀ (fuel : Nat) (entries : List (Option Nat × Int))
    (k left right j : Nat),
    strictAsc (sepKeysOf entries) = true →
    1 ≤ left → left ≤ j → j < right → right ≤ entries.length - 1 →
    keyAtI entries j ≤ k → k < keyAtI entries (j + 1) →
    right - left ≤ fuel →
    internalLookupGo entries k fuel left right = valueAtI entries j := by
  intro fuel
  induction fuel with
  | zero =>
    intro entries k left right j hs hl hlj hjr hrn hjk hkj hf
    exfalso
    omega
  | succ fuel ih =>
    intro entries k left right j hs hl hlj hjr hrn hjk hkj hf
    unfold internalLookupGo
    by_cases hguard : left < right ∧ left + 1 ≠ right
    · rw [if_pos hguard]
      dsimp only
      set mid := left + (right - left) / 2 with hmiddef
      have hmid1 : left < mid := by omega
      have hmid2 : mid < right := by omega
      by_cases h1 : k < keyAtI entries mid
      · rw [if_pos h1]
        have hjmid : j < mid := by
          by_contra hc
          push_neg at hc
          have hmono : keyAtI entries mid ≤ keyAtI entries j :=
            keyAtI_le entries hs (by omega) hc (by omega)
          omega
        exact ih entries k left mid j hs hl hlj hjmid (by omega) hjk hkj (by omega)
      · rw [if_neg h1]
        by_cases h2 : k > keyAtI entries mid
        · rw [if_pos h2]
          have hmidj : mid ≤ j := by
            by_contra hc
            push_neg at hc
            have hmono : keyAtI entries (j + 1) ≤ keyAtI entries mid :=
              keyAtI_le entries hs (by omega) (by omega) (by omega)
            omega
          exact ih entries k mid right j hs (by omega) hmidj hjr hrn hjk hkj (by omega)
        · rw [if_neg h2]
          have hmidj : mid = j := by
            by_contra hc
            rcases Nat.lt_or_ge mid j with h | h
            · have hmono : keyAtI entries mid < keyAtI entries j :=
                keyAtI_lt entries hs (by omega) h (by omega)
              omega
            · have hmono : keyAtI entries (j + 1) ≤ keyAtI entries mid :=
                keyAtI_le entries hs (by omega) (by omega) (by omega)
              omega
          rw [hmidj]
    · rw [if_neg hguard]
      have hjl : j = left := by
        rcases Decidable.em (left < right) with h | h
        · rcases Decidable.em (left + 1 = right) with h' | h'
          · omega
          · exact absurd ⟨h, h'⟩ hguard
        · omega
      rw [hjl]

/-- `BPlusTreeInternalPage::Lookup` returns the child whose range
holds `k` (with `key_0 = -∞` and `key_size = +∞`). -/
theorem internalLookup_spec (entries : List (Option Nat × Int)) (k j : Nat)
    (hs : strictAsc (sepKeysOf entries) = true)
    (hn : 2 ≤ entries.length)
    (hj : j < entries.length)
    (hlo : 1 ≤ j → keyAtI entries j ≤ k)
    (hhi : j + 1 < entries.length → k < keyAtI entries (j + 1)) :
    internalLookup entries k = valueAtI entries j := by
  unfold internalLookup
  rcases Nat.eq_zero_or_pos j with hj0 | hjpos
  · subst hj0
    rw [if_pos (hhi (by omega))]
  · have hjk := hlo hjpos
    have hk1 : keyAtI entries 1 ≤ k :=
      le_trans (keyAtI_le entries hs (by omega) hjpos hj) hjk
    rw [if_neg (by omega)]
    rcases Nat.lt_or_ge j (entries.length - 1) with hjlt | hjge
    · have hkj1 : k < keyAtI entries (j + 1) := hhi (by omega)
      have hjlast : keyAtI entries (j + 1) ≤ keyAtI entries (entries.length - 1) :=
        keyAtI_le entries hs (by omega) (by omega) (by omega)
      rw [if_neg (by omega)]
      exact internalLookupGo_spec entries.length entries k 1 (entries.length - 1) j hs
        (by omega) hjpos hjlt (by omega) hjk hkj1 (by omega)
    · have hjeq : j = entries.length - 1 := by omega
      rw [if_pos (by rw [← hjeq]; exact hjk), hjeq]

theorem boundOK_iff (lo hi : Option Nat) (k : Nat) :
    boundOK lo hi k = true ↔
      (∀ b, lo = some b → b ≤ k) ∧ (∀ b, hi = some b → k < b) := by
  cases lo <;> cases hi <;> simp [boundOK]

/-- Every separator key (index `1 ≤ j < size`) is a member of
`sepKeysOf`. -/
theorem sepKey_mem (entries : List (Option Nat × Int)) (j : Nat)
    (h1 : 1 ≤ j) (h2 : j < entries.length) :
    keyAtI entries j ∈ sepKeysOf entries := by
  obtain ⟨j', rfl⟩ : ∃ j', j = j' + 1 := ⟨j - 1, by omega⟩
  rw [← sepKeysOf_getD]
  have hlt : j' < (sepKeysOf entries).length := by rw [sepKeysOf_length]; omega
  rw [List.getD_eq_getElem _ _ hlt]
  exact List.getElem_mem hlt

/-- All keys of a well-formed subtree satisfy its bound pair. -/
theorem nodeKeys_bounded : ∀ (fuel : Nat) (ps : List (Int × BNode)) (pid : Int)
    (lo hi : Option Nat) (k : Nat),
    wfNode ps fuel pid lo hi = true → k ∈ nodeKeys ps fuel pid →
    boundOK lo hi k = true := by
  intro fuel
  induction fuel with
  | zero =>
    intro ps pid lo hi k hwf hk
    simp [wfNode] at hwf
  | succ fuel ih =>
    intro ps pid lo hi k hwf hk
    unfold wfNode at hwf
    unfold nodeKeys at hk
    cases hlk : ps.lookup pid with
    | none =>
      rw [hlk] at hwf
      cases hwf
    | some nd =>
      rw [hlk] at hwf hk
      cases nd with
      | leaf lf =>
        rw [Bool.and_eq_true] at hwf
        exact List.all_eq_true.mp hwf.2 k hk
      | internal nd =>
        simp only [Bool.and_eq_true] at hwf
        obtain ⟨⟨⟨hn2, hsep⟩, hsepb⟩, hch⟩ := hwf
        rw [List.mem_flatten] at hk
        obtain ⟨l, hl, hkl⟩ := hk
        rw [List.mem_map] at hl
        obtain ⟨j, hjr, rfl⟩ := hl
        rw [List.mem_range] at hjr
        have hwfj := List.all_eq_true.mp hch j (List.mem_range.mpr hjr)
        have hbj := ih ps (valueAtI nd.entries j) _ _ k hwfj hkl
        rw [boundOK_iff] at hbj ⊢
        have hsepsb : ∀ i, 1 ≤ i → i < nd.entries.length →
            boundOK lo hi (keyAtI nd.entries i) = true := by
          intro i hi1 hi2
          exact List.all_eq_true.mp hsepb _ (sepKey_mem nd.entries i hi1 hi2)
        constructor
        · intro b hb
          rcases Nat.eq_zero_or_pos j with hj0 | hjpos
          · exact hbj.1 b (by rw [← hb]; unfold childLo; rw [if_pos hj0])
          · have hkey : keyAtI nd.entries j ≤ k := by
              apply hbj.1
              unfold childLo
              rw [if_neg (by omega)]
            have hbkey : b ≤ keyAtI nd.entries j := by
              have := (boundOK_iff _ _ _).mp (hsepsb j hjpos hjr)
              exact this.1 b hb
            omega
        · intro b hb
          rcases Decidable.em (j + 1 = nd.entries.length) with hjlast | hjmid
          · exact hbj.2 b (by rw [← hb]; unfold childHi; rw [if_pos hjlast])
          · have hkey : k < keyAtI nd.entries (j + 1) := by
              apply hbj.2
              unfold childHi
              rw [if_neg hjmid]
            have hbkey : keyAtI nd.entries (j + 1) < b := by
              have := (boundOK_iff _ _ _).mp (hsepsb (j + 1) (by omega) (by omega))
              exact this.2 b hb
            omega

/-- Descent correctness: in a well-formed subtree containing key `k`,
`FindLeafPage`'s loop reaches a leaf that contains `k`. -/
theorem findLeaf_found : ∀ (fuel : Nat) (ps : List (Int × BNode)) (pid : Int)
    (lo hi : Option Nat) (k : Nat),
    wfNode ps fuel pid lo hi = true →
    k ∈ nodeKeys ps fuel pid →
    ∃ lid lf, findLeafGo ps k fuel pid = some lid ∧
      ps.lookup lid = some (.leaf lf) ∧ k ∈ keysOfL lf.kvs ∧
      strictAsc (keysOfL lf.kvs) = true := by
  intro fuel
  induction fuel with
  | zero =>
    intro ps pid lo hi k hwf hk
    simp [wfNode] at hwf
  | succ fuel ih =>
    intro ps pid lo hi k hwf hk
    unfold wfNode at hwf
    unfold nodeKeys at hk
    cases hlk : ps.lookup pid with
    | none =>
      rw [hlk] at hwf
      cases hwf
    | some nd =>
      rw [hlk] at hwf hk
      cases nd with
      | leaf lf =>
        rw [Bool.and_eq_true] at hwf
        refine ⟨pid, lf, ?_, hlk, hk, hwf.1⟩
        unfold findLeafGo
        rw [hlk]
      | internal nd =>
        simp only [Bool.and_eq_true] at hwf
        obtain ⟨⟨⟨hn2, hsep⟩, _hsepb⟩, hch⟩ := hwf
        rw [List.mem_flatten] at hk
        obtain ⟨l, hl, hkl⟩ := hk
        rw [List.mem_map] at hl
        obtain ⟨j, hjr, rfl⟩ := hl
        rw [List.mem_range] at hjr
        have hwfj := List.all_eq_true.mp hch j (List.mem_range.mpr hjr)
        have hbj := nodeKeys_bounded fuel ps (valueAtI nd.entries j) _ _ k hwfj hkl
        rw [boundOK_iff] at hbj
        have hnav : internalLookup nd.entries k = valueAtI nd.entries j := by
          apply internalLookup_spec nd.entries k j hsep (by exact_mod_cast of_decide_eq_true hn2) hjr
          · intro hjpos
            apply hbj.1
            unfold childLo
            rw [if_neg (by omega)]
          · intro hjmid
            apply hbj.2
            unfold childHi
            rw [if_neg (by omega)]
        have hstep : findLeafGo ps k (fuel + 1) pid =
            findLeafGo ps k fuel (internalLookup nd.entries k) := by
          conv_lhs => unfold findLeafGo
          rw [hlk]
        rw [hstep, hnav]
        exact ih ps (valueAtI nd.entries j) _ _ k hwfj hkl

/-- Claim C5 (confirmed): on every non-empty well-formed B+Tree,
inserting a key that is already present returns false and leaves the
tree state (page store, root, allocator) completely unchanged:
`InsertIntoLeaf` descends to the leaf covering the key, finds it via
`Lookup`, and returns before modifying anything. -/
theorem insert_duplicate_returns_false (s : TreeState) (k v : Nat)
    (hwf : wfNode s.pages (s.pages.length + 1) s.root none none = true)
    (hne : s.root ≠ -1)
    (hk : k ∈ nodeKeys s.pages (s.pages.length + 1) s.root) :
    bInsert s k v = (false, s) := by
  obtain ⟨lid, lf, hfind, hlk, hmem, hsort⟩ :=
    findLeaf_found (s.pages.length + 1) s.pages s.root none none k hwf hk
  obtain ⟨w, hw⟩ := leafLookup_found lf.kvs k hsort hmem
  have hfb : findLeafB s k = some lid := by
    unfold findLeafB
    rw [if_neg hne]
    exact hfind
  have hget : getNode s lid = some (BNode.leaf lf) := hlk
  unfold bInsert
  rw [if_neg hne]
  unfold insertIntoLeaf
  simp only [hfb, hget, hw]

/-- A concrete well-formed single-leaf tree holding keys 1 and 2. -/
def leafTree12 : TreeState :=
  { pages := [(1, BNode.leaf { kvs := [(1, 10), (2, 20)], parent := -1, next := -1 })]
    root := 1, nextPid := 2, leafMax := 4, internalMax := 4 }

/-- Witness for C5: inserting the already-present key 2 into
`leafTree12` returns false and changes nothing. -/
theorem insert_duplicate_returns_false_witness :
    bInsert leafTree12 2 99 = (false, leafTree12) :=
  insert_duplicate_returns_false leafTree12 2 99 (by decide) (by decide) (by decide)

/-! # Deadlock detector (`lock_manager.cpp`, `HasCycle` /
`ProcessDFSTree` / `GetYoungestTransactionInCycle`)

The waits-for graph `waits_for_` is an association list from
transaction id to its (sorted) adjacency vector; transaction ids are
nonnegative (`txn_id_t` values are assigned from 0 upwards), modelled
as `Nat`.  `HasCycle` snapshots and sorts the vertex set, then runs a
tri-colour DFS; the visited map mirrors the `unordered_map<txn_id_t,
VisitedType>`; the DFS stack is the `path` list, head = top.
`ProcessDFSTree`'s unbounded recursion carries an explicit fuel; the
fuel `graphFuel` (one more than the number of node occurrences in the
graph) never runs out because every recursive step colours a fresh
node. -/

/-- The waits-for graph: `(txn id, adjacency list)` entries. -/
abbrev WGraph := List (Nat × List Nat)

/-- Adjacency function (`waits_for_[t]`; a missing key default
constructs an empty vector). -/
def adjOf (g : WGraph) : Nat → List Nat := fun t => (g.lookup t).getD []

/-- `LockManager::VisitedType`. -/
inductive VColor | inStack | visited
deriving DecidableEq, Repr

/-- The DFS visited map. -/
abbrev VMap := List (Nat × VColor)

/-- `visited->insert_or_assign(x, c)`. -/
def vAssign (m : VMap) (x : Nat) (c : VColor) : VMap :=
  if (m.lookup x).isSome then m.map (fun p => if p.1 = x then (x, c) else p)
  else (x, c) :: m

/-- The cycle segment `GetYoungestTransactionInCycle` pops off the
stack: the path prefix down to (and including) the back edge's target
`v`. -/
def cycleSeg (path : List Nat) (v : Nat) : List Nat :=
  match path with
  | [] => []
  | x :: rest => if x = v then [x] else x :: cycleSeg rest v

/-- `LockManager::GetYoungestTransactionInCycle`: maximum transaction
id on the popped cycle segment (`max_txn_id` starts at 0). -/
def youngestInCycle (path : List Nat) (v : Nat) : Nat :=
  (cycleSeg path v).foldl Nat.max 0

mutual

/-- `LockManager::ProcessDFSTree`: examine the stack top's neighbours,
then mark the top VISITED and pop. -/
def dfsVisit (adj : Nat → List Nat) : Nat → List Nat → VMap → Option Nat × VMap
  | 0, _, m => (none, m)
  | fuel + 1, path, m =>
    let res := dfsNeighbors adj fuel (adj (path.headD 0)) path m
    (res.1, vAssign res.2 (path.headD 0) VColor.visited)

/-- The neighbour loop of `ProcessDFSTree`: an IN_STACK neighbour is a
back edge (cycle found, victim computed); a VISITED one is skipped; an
uncoloured one is pushed, marked IN_STACK, and recursed into. -/
def dfsNeighbors (adj : Nat → List Nat) : Nat → List Nat → List Nat → VMap →
    Option Nat × VMap
  | _, [], _, m => (none, m)
  | fuel, v :: vs, path, m =>
    match m.lookup v with
    | some VColor.inStack => (some (youngestInCycle path v), m)
    | some VColor.visited => dfsNeighbors adj fuel vs path m
    | none =>
      match dfsVisit adj fuel (v :: path) ((v, VColor.inStack) :: m) with
      | (some t, m') => (some t, m')
      | (none, m') => dfsNeighbors adj fuel vs path m'

end

/-- The vertex loop of `LockManager::HasCycle`: start a DFS from every
not-yet-visited vertex, in order. -/
def hasCycleGo (adj : Nat → List Nat) (fuel : Nat) : List Nat → VMap → Option Nat
  | [], _ => none
  | v :: vs, m =>
    match m.lookup v with
    | some _ => hasCycleGo adj fuel vs m
    | none =>
      match dfsVisit adj fuel [v] ((v, VColor.inStack) :: m) with
      | (some t, _) => some t
      | (none, m') => hasCycleGo adj fuel vs m'

/-- Fuel covering every node occurrence of the graph (keys plus edge
targets), plus one. -/
def graphFuel (g : WGraph) : Nat :=
  1 + g.length + (g.map (fun e => e.2.length)).sum

/-- The sorted vertex vector of `HasCycle`. -/
def sortedVertices (g : WGraph) : List Nat :=
  List.insertionSort (· ≤ ·) (g.map Prod.fst)

/-- `LockManager::HasCycle`: `some victim` models returning true with
`*txn_id = victim`. -/
def hasCycle (g : WGraph) : Option Nat :=
  hasCycleGo (adjOf g) (graphFuel g) (sortedVertices g) []

/-- A directed cycle of `adj`: nonempty, consecutive edges, and an
edge from the last element back to the head. -/
def IsCycle (adj : Nat → List Nat) (c : List Nat) : Prop :=
  c ≠ [] ∧ List.Chain' (fun a b => b ∈ adj a) c ∧ c.headD 0 ∈ adj (c.getLastD 0)

instance (adj : Nat → List Nat) (c : List Nat) : Decidable (IsCycle adj c) :=
  inferInstanceAs (Decidable (c ≠ [] ∧ List.Chain' (fun a b => b ∈ adj a) c ∧
    c.headD 0 ∈ adj (c.getLastD 0)))

/-! ## Visited-map lemmas -/

/-- A node is grey iff it is currently marked IN_STACK. -/
def Gray (m : VMap) (x : Nat) : Prop := m.lookup x = some VColor.inStack

/-- A node is black iff it is marked VISITED. -/
def Black (m : VMap) (x : Nat) : Prop := m.lookup x = some VColor.visited

def mKeys (m : VMap) : List Nat := m.map Prod.fst

theorem vmap_lookup_cons (x y : Nat) (c : VColor) (m : VMap) :
    ((y, c) :: m).lookup x = if y = x then some c else m.lookup x := by
  rw [List.lookup_cons]
  by_cases h : x = y
  · have hb : (x == y) = true := beq_iff_eq.mpr h
    rw [hb, if_pos h.symm]
  · have hb : (x == y) = false := beq_eq_false_iff_ne.mpr h
    rw [hb, if_neg (fun hc => h hc.symm)]

theorem lookup_none_iff_not_mem_keys (m : VMap) (x : Nat) :
    m.lookup x = none ↔ x ∉ mKeys m := by
  induction m with
  | nil => simp [mKeys]
  | cons e rest ih =>
    obtain ⟨y, c⟩ := e
    rw [vmap_lookup_cons]
    by_cases h : y = x
    · rw [if_pos h]
      subst h
      simp [mKeys]
    · rw [if_neg h, ih]
      simp only [mKeys, List.map_cons, List.mem_cons]
      constructor
      · intro hn hc
        rcases hc with hc | hc
        · exact h hc.symm
        · exact hn hc
      · intro hn hc
        exact hn (Or.inr hc)

theorem lookup_mapReplace (m : VMap) (x : Nat) (c : VColor) :
    (m.map (fun p => if p.1 = x then (x, c) else p)).lookup x =
      if (m.lookup x).isSome then some c else none := by
  induction m with
  | nil => simp
  | cons e rest ih =>
    obtain ⟨y, d⟩ := e
    simp only [List.map_cons]
    dsimp only
    by_cases h : y = x
    · subst h
      rw [if_pos rfl, vmap_lookup_cons, vmap_lookup_cons, if_pos rfl, if_pos rfl]
      simp
    · rw [if_neg h, vmap_lookup_cons, vmap_lookup_cons, if_neg h, if_neg h]
      exact ih

theorem lookup_mapReplace_ne (m : VMap) (x z : Nat) (c : VColor) (h : z ≠ x) :
    (m.map (fun p => if p.1 = x then (x, c) else p)).lookup z = m.lookup z := by
  induction m with
  | nil => simp
  | cons e rest ih =>
    obtain ⟨y, d⟩ := e
    simp only [List.map_cons]
    dsimp only
    by_cases hy : y = x
    · subst hy
      rw [if_pos rfl, vmap_lookup_cons, vmap_lookup_cons, if_neg (fun hc => h hc.symm),
        if_neg (fun hc => h hc.symm)]
      exact ih
    · rw [if_neg hy, vmap_lookup_cons, vmap_lookup_cons]
      by_cases hz : y = z
      · rw [if_pos hz, if_pos hz]
      · rw [if_neg hz, if_neg hz]
        exact ih

theorem vAssign_lookup_self (m : VMap) (x : Nat) (c : VColor) :
    (vAssign m x c).lookup x = some c := by
  unfold vAssign
  by_cases h : (m.lookup x).isSome
  · rw [if_pos h, lookup_mapReplace, if_pos h]
  · rw [if_neg h, vmap_lookup_cons, if_pos rfl]

theorem vAssign_lookup_ne (m : VMap) (x z : Nat) (c : VColor) (h : z ≠ x) :
    (vAssign m x c).lookup z = m.lookup z := by
  unfold vAssign
  by_cases hs : (m.lookup x).isSome
  · rw [if_pos hs, lookup_mapReplace_ne m x z c h]
  · rw [if_neg hs, vmap_lookup_cons, if_neg (fun hc => h hc.symm)]

theorem vAssign_keys_of_isSome (m : VMap) (x : Nat) (c : VColor)
    (h : (m.lookup x).isSome) : mKeys (vAssign m x c) = mKeys m := by
  unfold vAssign
  rw [if_pos h]
  unfold mKeys
  rw [List.map_map]
  apply List.map_congr_left
  intro p _
  by_cases hp : p.1 = x
  · simp [hp]
  · simp [hp]

theorem vAssign_length_of_isSome (m : VMap) (x : Nat) (c : VColor)
    (h : (m.lookup x).isSome) : (vAssign m x c).length = m.length := by
  unfold vAssign
  rw [if_pos h, List.length_map]

/-! ## Max-fold lemmas -/

theorem le_foldl_max_init : ∀ (l : List Nat) (a : Nat), a ≤ l.foldl Nat.max a := by
  intro l
  induction l with
  | nil => intro a; exact le_refl a
  | cons x xs ih =>
    intro a
    exact le_trans (Nat.le_max_left a x) (ih (Nat.max a x))

theorem le_foldl_max_mem : ∀ (l : List Nat) (a x : Nat), x ∈ l → x ≤ l.foldl Nat.max a := by
  intro l
  induction l with
  | nil => intro a x hx; cases hx
  | cons y ys ih =>
    intro a x hx
    rcases List.mem_cons.mp hx with h | h
    · subst h
      exact le_trans (Nat.le_max_right a x) (le_foldl_max_init ys (Nat.max a x))
    · exact ih (Nat.max a y) x h

theorem foldl_max_mem : ∀ (l : List Nat) (a : Nat),
    l.foldl Nat.max a = a ∨ l.foldl Nat.max a ∈ l := by
  intro l
  induction l with
  | nil => intro a; exact Or.inl rfl
  | cons x xs ih =>
    intro a
    rcases ih (Nat.max a x) with h | h
    · rcases Nat.le_total a x with hax | hax
      · right
        rw [List.foldl_cons, h, show Nat.max a x = x from Nat.max_eq_right hax]
        exact List.mem_cons_self x xs
      · left
        rw [List.foldl_cons, h, show Nat.max a x = a from Nat.max_eq_left hax]
    · right
      exact List.mem_cons_of_mem x h

/-! ## Cycle-segment lemmas -/

theorem cycleSeg_eq_concat : ∀ (path : List Nat) (v : Nat), v ∈ path →
    ∃ pre, cycleSeg path v = pre ++ [v] := by
  intro path
  induction path with
  | nil => intro v hv; cases hv
  | cons x rest ih =>
    intro v hv
    simp only [cycleSeg]
    by_cases h : x = v
    · rw [if_pos h, h]
      exact ⟨[], rfl⟩
    · rw [if_neg h]
      have hv' : v ∈ rest := by
        rcases List.mem_cons.mp hv with hc | hc
        · exact absurd hc.symm h
        · exact hc
      obtain ⟨pre, hpre⟩ := ih v hv'
      refine ⟨x :: pre, ?_⟩
      rw [hpre]
      rfl

theorem cycleSeg_prefix : ∀ (path : List Nat) (v : Nat),
    ∃ rest, path = cycleSeg path v ++ rest := by
  intro path
  induction path with
  | nil => intro v; exact ⟨[], rfl⟩
  | cons x r ih =>
    intro v
    simp only [cycleSeg]
    by_cases h : x = v
    · rw [if_pos h]
      exact ⟨r, rfl⟩
    · rw [if_neg h]
      obtain ⟨rest, hrest⟩ := ih v
      exact ⟨rest, by rw [List.cons_append, ← hrest]⟩

theorem cycleSeg_head : ∀ (x : Nat) (rest : List Nat) (v : Nat),
    (cycleSeg (x :: rest) v).headD 0 = x := by
  intro x rest v
  simp only [cycleSeg]
  by_cases h : x = v
  · rw [if_pos h]
    rfl
  · rw [if_neg h]
    rfl

/-! ## Finish-order lists and acyclicity

A DFS that finds no cycle blackens nodes in an order in which every
edge leaves a node blackened later towards one blackened earlier.
`EEok` states this for a newest-first list; a graph admitting such a
list covering a cycle's nodes is contradictory. -/

/-- Edges out of every node point into the strictly older suffix. -/
def EEok (adj : Nat → List Nat) : List Nat → Prop
  | [] => True
  | u :: rest => (∀ x ∈ adj u, x ∈ rest) ∧ EEok adj rest

theorem EEok_adj_mem (adj : Nat → List Nat) :
    ∀ (L : List Nat), EEok adj L → ∀ y ∈ L, ∀ x ∈ adj y, x ∈ L := by
  intro L
  induction L with
  | nil => intro _ y hy; cases hy
  | cons u rest ih =>
    intro hE y hy x hx
    rcases List.mem_cons.mp hy with h | h
    · rw [h] at hx
      exact List.mem_cons_of_mem u (hE.1 x hx)
    · exact List.mem_cons_of_mem u (ih hE.2 y h x hx)

theorem getLastD_mem_cons : ∀ (l : List Nat) (a : Nat), l.getLastD a ∈ a :: l := by
  intro l
  induction l with
  | nil => intro a; simp
  | cons b t ih =>
    intro a
    rw [List.getLastD_cons]
    rcases List.mem_cons.mp (ih b) with h | h
    · rw [h]
      exact List.mem_cons_of_mem a (List.mem_cons_self b t)
    · exact List.mem_cons_of_mem a (List.mem_cons_of_mem b h)

theorem chain'_pred (R : Nat → Nat → Prop) :
    ∀ (l : List Nat), List.Chain' R l → ∀ x, x ∈ l.tail → ∃ y ∈ l, R y x := by
  intro l
  induction l with
  | nil => intro _ x hx; cases hx
  | cons a t ih =>
    intro hch x hx
    cases t with
    | nil => cases hx
    | cons b t' =>
      rw [List.chain'_cons] at hch
      rcases List.mem_cons.mp hx with h | h
      · subst h
        exact ⟨a, List.mem_cons_self a (x :: t'), hch.1⟩
      · obtain ⟨y, hy, hyx⟩ := ih hch.2 x h
        exact ⟨y, List.mem_cons_of_mem a hy, hyx⟩

theorem chain'_succ (R : Nat → Nat → Prop) :
    ∀ (l : List Nat) (d : Nat), List.Chain' R l → ∀ x ∈ l,
      (∃ y, R x y) ∨ x = l.getLastD d := by
  intro l
  induction l with
  | nil => intro d _ x hx; cases hx
  | cons a t ih =>
    intro d hch x hx
    cases t with
    | nil =>
      rcases List.mem_cons.mp hx with h | h
      · right
        rw [h, List.getLastD_cons]
        rfl
      · cases h
    | cons b t' =>
      rw [List.chain'_cons] at hch
      rcases List.mem_cons.mp hx with h | h
      · left
        exact ⟨b, h ▸ hch.1⟩
      · rw [List.getLastD_cons]
        exact ih b hch.2 x h

/-- Every node of a cycle has a cycle predecessor. -/
theorem cycle_pred (adj : Nat → List Nat) (c : List Nat) (hc : IsCycle adj c) :
    ∀ x ∈ c, ∃ y ∈ c, x ∈ adj y := by
  obtain ⟨hne, hchain, hback⟩ := hc
  intro x hx
  match c, hne, hchain, hback, hx with
  | a :: rest, _, hchain, hback, hx =>
    rcases List.mem_cons.mp hx with h | h
    · subst h
      refine ⟨(x :: rest).getLastD 0, ?_, hback⟩
      rw [List.getLastD_cons]
      exact getLastD_mem_cons rest x
    · exact chain'_pred _ (a :: rest) hchain x h

/-- Every node of a cycle has an outgoing edge. -/
theorem cycle_succ (adj : Nat → List Nat) (c : List Nat) (hc : IsCycle adj c) :
    ∀ x ∈ c, ∃ y, y ∈ adj x := by
  obtain ⟨_hne, hchain, hback⟩ := hc
  intro x hx
  rcases chain'_succ _ c 0 hchain x hx with h | h
  · exact h
  · exact ⟨c.headD 0, h ▸ hback⟩

/-- No cycle is covered by an `EEok` finish list. -/
theorem EEok_no_cycle (adj : Nat → List Nat) :
    ∀ (L : List Nat), EEok adj L → ∀ (c : List Nat), IsCycle adj c →
    ¬(∀ x ∈ c, x ∈ L) := by
  intro L
  induction L with
  | nil =>
    intro _ c hc hsub
    obtain ⟨hne, _, _⟩ := hc
    match c, hne with
    | a :: rest, _ => exact absurd (hsub a (List.mem_cons_self a rest)) (by simp)
  | cons u rest ih =>
    intro hE c hc hsub
    apply ih hE.2 c hc
    intro x hx
    obtain ⟨y, hy, hyx⟩ := cycle_pred adj c hc x hx
    rcases List.mem_cons.mp (hsub y hy) with h | h
    · subst h
      exact hE.1 x hyx
    · exact EEok_adj_mem adj rest hE.2 y h x hyx

/-- At a back edge from the stack top `u` to the in-stack node `v`,
the popped segment (reversed) is a genuine cycle and the reported
victim is its maximum transaction id. -/
theorem backEdge_cycle (adj : Nat → List Nat) (u : Nat) (p : List Nat) (v : Nat)
    (hchain : List.Chain' (fun a b => a ∈ adj b) (u :: p))
    (hv : v ∈ u :: p) (hedge : v ∈ adj u) :
    ∃ c, IsCycle adj c ∧ youngestInCycle (u :: p) v ∈ c ∧
      ∀ x ∈ c, x ≤ youngestInCycle (u :: p) v := by
  obtain ⟨pre, hpre⟩ := cycleSeg_eq_concat (u :: p) v hv
  obtain ⟨tail, htail⟩ := cycleSeg_prefix (u :: p) v
  have hhead : (cycleSeg (u :: p) v).headD 0 = u := cycleSeg_head u p v
  have hne : cycleSeg (u :: p) v ≠ [] := by rw [hpre]; simp
  have hchainS : List.Chain' (fun a b => a ∈ adj b) (cycleSeg (u :: p) v) :=
    hchain.prefix ⟨tail, htail.symm⟩
  obtain ⟨St, hS⟩ : ∃ St, cycleSeg (u :: p) v = u :: St := by
    match hS : cycleSeg (u :: p) v, hne with
    | a :: t, _ =>
      rw [hS] at hhead
      refine ⟨t, ?_⟩
      rw [← hhead]
      rfl
  refine ⟨(cycleSeg (u :: p) v).reverse, ⟨?_, ?_, ?_⟩, ?_, ?_⟩
  · rw [hpre]
    simp
  · rw [List.chain'_reverse]
    exact hchainS
  · have h1 : (cycleSeg (u :: p) v).reverse.headD 0 = v := by
      rw [hpre, List.reverse_append]
      rfl
    have h2 : (cycleSeg (u :: p) v).reverse.getLastD 0 = u := by
      rw [hS, List.reverse_cons, List.getLastD_concat]
    rw [h1, h2]
    exact hedge
  · unfold youngestInCycle
    rcases foldl_max_mem (cycleSeg (u :: p) v) 0 with h | h
    · rw [List.mem_reverse]
      have humem : u ∈ cycleSeg (u :: p) v := by
        rw [hS]
        exact List.mem_cons_self u St
      have hule := le_foldl_max_mem (cycleSeg (u :: p) v) 0 u humem
      rw [h] at hule ⊢
      have hu0 : u = 0 := by omega
      rw [← hu0]
      exact humem
    · rw [List.mem_reverse]
      exact h
  · intro x hx
    unfold youngestInCycle
    exact le_foldl_max_mem _ 0 x (List.mem_reverse.mp hx)

theorem Gray_def (m : VMap) (x : Nat) :
    Gray m x ↔ m.lookup x = some VColor.inStack := Iff.rfl

theorem Black_def (m : VMap) (x : Nat) :
    Black m x ↔ m.lookup x = some VColor.visited := Iff.rfl

/-- A victim reported by the DFS lies on a real cycle and is that
cycle's maximum transaction id. -/
def CycleFound (adj : Nat → List Nat) (t : Nat) : Prop :=
  ∃ c, IsCycle adj c ∧ t ∈ c ∧ ∀ x ∈ c, x ≤ t

/-- The master invariant of `ProcessDFSTree`: starting from a grey
stack top `u` over a grey, edge-chained path, with the blacks listed
by an `EEok` finish list and enough fuel for every yet-uncoloured node
of the universe `U`, the DFS either reports a genuine
maximum-of-a-cycle victim, or returns having blackened `u` (and every
node it completed), kept all invariants, and removed exactly `u` from
the grey set. -/
theorem dfsVisit_spec (adj : Nat → List Nat) (U : List Nat)
    (hadjU : ∀ a, ∀ b ∈ adj a, b ∈ U) :
    ∀ (fuel : Nat) (u : Nat) (p : List Nat) (m : VMap) (R : List Nat),
    (mKeys m).Nodup → (∀ x ∈ mKeys m, x ∈ U) →
    1 + U.length ≤ fuel + m.length →
    Gray m u →
    List.Chain' (fun a b => a ∈ adj b) (u :: p) →
    (∀ x ∈ u :: p, Gray m x) →
    (∀ x, Gray m x → x ∈ u :: p) →
    (∀ x, Black m x ↔ x ∈ R) →
    EEok adj R →
    (∀ t m', dfsVisit adj fuel (u :: p) m = (some t, m') → CycleFound adj t) ∧
    (∀ m', dfsVisit adj fuel (u :: p) m = (none, m') →
      (mKeys m').Nodup ∧ (∀ x ∈ mKeys m', x ∈ U) ∧ m.length ≤ m'.length ∧
      (∀ x, Black m x → Black m' x) ∧ Black m' u ∧
      (∀ x, Gray m' x ↔ (Gray m x ∧ x ≠ u)) ∧
      ∃ R', (∀ x, Black m' x ↔ x ∈ R') ∧ EEok adj R') := by
  intro fuel
  induction fuel with
  | zero =>
    intro u p m R hnd hkU hfuel _hgray _hchain _hpg _hgs _hb _hE
    exfalso
    have hsub : mKeys m ⊆ U := fun x hx => hkU x hx
    have hlen : (mKeys m).length ≤ U.length := (hnd.subperm hsub).length_le
    have hmk : (mKeys m).length = m.length := by simp [mKeys]
    omega
  | succ fuel ih =>
    intro u p m R hnd hkU hfuel hgray hchain hpg hgs hb hE
    have hN : ∀ (ns : List Nat), (∀ v ∈ ns, v ∈ adj u) →
        ∀ (m₀ : VMap) (R₀ : List Nat),
        (mKeys m₀).Nodup → (∀ x ∈ mKeys m₀, x ∈ U) →
        U.length ≤ fuel + m₀.length →
        (∀ x ∈ u :: p, Gray m₀ x) →
        (∀ x, Gray m₀ x → x ∈ u :: p) →
        (∀ x, Black m₀ x ↔ x ∈ R₀) →
        EEok adj R₀ →
        (∀ t m', dfsNeighbors adj fuel ns (u :: p) m₀ = (some t, m') →
          CycleFound adj t) ∧
        (∀ m', dfsNeighbors adj fuel ns (u :: p) m₀ = (none, m') →
          (mKeys m').Nodup ∧ (∀ x ∈ mKeys m', x ∈ U) ∧ m₀.length ≤ m'.length ∧
          (∀ x, Black m₀ x → Black m' x) ∧ (∀ v ∈ ns, Black m' v) ∧
          (∀ x, Gray m' x ↔ Gray m₀ x) ∧
          ∃ R', (∀ x, Black m' x ↔ x ∈ R') ∧ EEok adj R') := by
      intro ns
      induction ns with
      | nil =>
        intro _ m₀ R₀ hnd₀ hkU₀ _hfuel₀ _hpg₀ _hgs₀ hb₀ hE₀
        constructor
        · intro t m' heq
          exact absurd heq (by simp [dfsNeighbors])
        · intro m' heq
          have hred : dfsNeighbors adj fuel ([] : List Nat) (u :: p) m₀ = (none, m₀) := by
            simp [dfsNeighbors]
          rw [hred] at heq
          have hm' : m' = m₀ := (congrArg Prod.snd heq).symm
          subst hm'
          exact ⟨hnd₀, ⟨hkU₀, ⟨le_refl _, ⟨fun x h => h,
            ⟨fun v hv => absurd hv (List.not_mem_nil v),
             ⟨fun x => Iff.rfl, ⟨R₀, ⟨hb₀, hE₀⟩⟩⟩⟩⟩⟩⟩⟩
      | cons v vs ihns =>
        intro hsub m₀ R₀ hnd₀ hkU₀ hfuel₀ hpg₀ hgs₀ hb₀ hE₀
        have hvadj : v ∈ adj u := hsub v (List.mem_cons_self v vs)
        cases hlv : m₀.lookup v with
        | some col =>
          cases col with
          | inStack =>
            have hred : dfsNeighbors adj fuel (v :: vs) (u :: p) m₀ =
                (some (youngestInCycle (u :: p) v), m₀) := by
              unfold dfsNeighbors
              rw [hlv]
            constructor
            · intro t m' heq
              rw [hred] at heq
              have ht : t = youngestInCycle (u :: p) v :=
                (Option.some_inj.mp (congrArg Prod.fst heq)).symm
              subst ht
              exact backEdge_cycle adj u p v hchain (hgs₀ v hlv) hvadj
            · intro m' heq
              rw [hred] at heq
              exact absurd (congrArg Prod.fst heq) (by simp)
          | visited =>
            have hred : dfsNeighbors adj fuel (v :: vs) (u :: p) m₀ =
                dfsNeighbors adj fuel vs (u :: p) m₀ := by
              conv_lhs => unfold dfsNeighbors
              rw [hlv]
            have hrec := ihns (fun w hw => hsub w (List.mem_cons_of_mem v hw)) m₀ R₀
              hnd₀ hkU₀ hfuel₀ hpg₀ hgs₀ hb₀ hE₀
            constructor
            · intro t m' heq
              rw [hred] at heq
              exact hrec.1 t m' heq
            · intro m' heq
              rw [hred] at heq
              obtain ⟨c1, c2, c3, c4, c5, c6, R', c7, c8⟩ := hrec.2 m' heq
              refine ⟨c1, c2, c3, c4, ?_, c6, R', c7, c8⟩
              intro w hw
              rcases List.mem_cons.mp hw with h | h
              · rw [h]
                exact c4 v hlv
              · exact c5 w h
        | none =>
          have hvU : v ∈ U := hadjU u v hvadj
          have hvnotk : v ∉ mKeys m₀ := (lookup_none_iff_not_mem_keys m₀ v).mp hlv
          have hvnotgray : ¬ Gray m₀ v := by
            intro hc
            rw [Gray_def, hlv] at hc
            cases hc
          have hvnotpath : v ∉ u :: p := by
            intro hc
            exact hvnotgray (hpg₀ v hc)
          have hvnotblack : ¬ Black m₀ v := by
            intro hc
            rw [Black_def, hlv] at hc
            cases hc
          have hvis := ih v (u :: p) ((v, VColor.inStack) :: m₀) R₀
            (by
              show (v :: mKeys m₀).Nodup
              exact List.nodup_cons.mpr ⟨hvnotk, hnd₀⟩)
            (by
              intro x hx
              rcases List.mem_cons.mp hx with h | h
              · rw [h]; exact hvU
              · exact hkU₀ x h)
            (by
              show 1 + U.length ≤ fuel + (m₀.length + 1)
              omega)
            (by
              show ((v, VColor.inStack) :: m₀).lookup v = some VColor.inStack
              rw [vmap_lookup_cons, if_pos rfl])
            (by
              rw [List.chain'_cons]
              exact ⟨hvadj, hchain⟩)
            (by
              intro x hx
              rcases List.mem_cons.mp hx with h | h
              · rw [h]
                show ((v, VColor.inStack) :: m₀).lookup v = some VColor.inStack
                rw [vmap_lookup_cons, if_pos rfl]
              · have hxg := hpg₀ x h
                have hxv : x ≠ v := by
                  intro hc
                  rw [hc] at hxg
                  exact hvnotgray hxg
                show ((v, VColor.inStack) :: m₀).lookup x = some VColor.inStack
                rw [vmap_lookup_cons, if_neg (fun hc => hxv hc.symm)]
                exact hxg)
            (by
              intro x hx
              rw [Gray_def, vmap_lookup_cons] at hx
              by_cases hxv : v = x
              · rw [← hxv]
                exact List.mem_cons_self v (u :: p)
              · rw [if_neg hxv] at hx
                exact List.mem_cons_of_mem v (hgs₀ x hx))
            (by
              intro x
              rw [Black_def, vmap_lookup_cons]
              by_cases hxv : v = x
              · rw [if_pos hxv]
                constructor
                · intro hc
                  cases hc
                · intro hc
                  rw [← hxv] at hc
                  exact absurd (hb₀ v |>.mpr hc) hvnotblack
              · rw [if_neg hxv]
                exact hb₀ x)
            hE₀
          cases hdv : dfsVisit adj fuel (v :: u :: p) ((v, VColor.inStack) :: m₀) with
          | mk r m₂ =>
            have hred : dfsNeighbors adj fuel (v :: vs) (u :: p) m₀ =
                match (r, m₂) with
                | (some t, m') => (some t, m')
                | (none, m') => dfsNeighbors adj fuel vs (u :: p) m' := by
              conv_lhs => unfold dfsNeighbors
              rw [hlv, hdv]
            cases r with
            | some t =>
              constructor
              · intro t' m' heq
                rw [hred] at heq
                have ht : t' = t := (Option.some_inj.mp (congrArg Prod.fst heq)).symm
                subst ht
                exact hvis.1 t' m₂ hdv
              · intro m' heq
                rw [hred] at heq
                exact absurd (congrArg Prod.fst heq) (by simp)
            | none =>
              obtain ⟨n1, n2, n3, n4, n5, n6, R₂, n7, n8⟩ := hvis.2 m₂ hdv
              have hred' : dfsNeighbors adj fuel (v :: vs) (u :: p) m₀ =
                  dfsNeighbors adj fuel vs (u :: p) m₂ := hred
              have hrec := ihns (fun w hw => hsub w (List.mem_cons_of_mem v hw)) m₂ R₂
                n1 n2
                (by
                  have : m₀.length + 1 ≤ m₂.length := by
                    have := n3
                    simpa using this
                  omega)
                (by
                  intro x hx
                  have hxg := hpg₀ x hx
                  have hxv : x ≠ v := by
                    intro hc
                    rw [hc] at hxg
                    exact hvnotgray hxg
                  rw [Gray_def] at hxg ⊢
                  have h6 := (n6 x).mpr ⟨by
                    show ((v, VColor.inStack) :: m₀).lookup x = some VColor.inStack
                    rw [vmap_lookup_cons, if_neg (fun hc => hxv hc.symm)]
                    exact hxg, hxv⟩
                  exact h6)
                (by
                  intro x hx
                  obtain ⟨hx1, hx2⟩ := (n6 x).mp hx
                  rw [Gray_def, vmap_lookup_cons, if_neg (fun hc => hx2 hc.symm)] at hx1
                  exact hgs₀ x hx1)
                n7 n8
              constructor
              · intro t m' heq
                rw [hred'] at heq
                exact hrec.1 t m' heq
              · intro m' heq
                rw [hred'] at heq
                obtain ⟨c1, c2, c3, c4, c5, c6, R', c7, c8⟩ := hrec.2 m' heq
                refine ⟨c1, c2, by
                    have h3 : m₀.length + 1 ≤ m₂.length := by simpa using n3
                    omega,
                  ?_, ?_, ?_, R', c7, c8⟩
                · intro x hx
                  apply c4
                  apply n4
                  have hxv : v ≠ x := by
                    intro hc
                    rw [← hc] at hx
                    exact hvnotblack hx
                  rw [Black_def, vmap_lookup_cons, if_neg hxv]
                  exact hx
                · intro w hw
                  rcases List.mem_cons.mp hw with h | h
                  · rw [h]
                    exact c4 v n5
                  · exact c5 w h
                · intro x
                  rw [c6, n6 x]
                  constructor
                  · rintro ⟨hx1, hx2⟩
                    rw [Gray_def, vmap_lookup_cons, if_neg (fun hc => hx2 hc.symm)] at hx1
                    exact hx1
                  · intro hx
                    have hxv : x ≠ v := by
                      intro hc
                      rw [hc] at hx
                      exact hvnotgray hx
                    exact ⟨by
                      rw [Gray_def, vmap_lookup_cons, if_neg (fun hc => hxv hc.symm)]
                      exact hx, hxv⟩
    have hNres := hN (adj u) (fun w hw => hw) m R hnd hkU (by omega) hpg hgs hb hE
    cases hdn : dfsNeighbors adj fuel (adj u) (u :: p) m with
    | mk r m₂ =>
      have hvis : dfsVisit adj (fuel + 1) (u :: p) m =
          (r, vAssign m₂ u VColor.visited) := by
        unfold dfsVisit
        rw [show (u :: p).headD 0 = u from rfl, hdn]
      cases r with
      | some t =>
        constructor
        · intro t' m' heq
          rw [hvis] at heq
          have ht : t' = t := (Option.some_inj.mp (congrArg Prod.fst heq)).symm
          subst ht
          exact hNres.1 t' m₂ hdn
        · intro m' heq
          rw [hvis] at heq
          exact absurd (congrArg Prod.fst heq) (by simp)
      | none =>
        obtain ⟨n1, n2, n3, n4, n5, n6, R₂, n7, n8⟩ := hNres.2 m₂ hdn
        constructor
        · intro t m' heq
          rw [hvis] at heq
          exact absurd (congrArg Prod.fst heq) (by simp)
        · intro m' heq
          rw [hvis] at heq
          have hm' : m' = vAssign m₂ u VColor.visited := (congrArg Prod.snd heq).symm
          subst hm'
          have hgray₂ : Gray m₂ u := (n6 u).mpr hgray
          have hus : (m₂.lookup u).isSome = true := by
            rw [Gray_def] at hgray₂
            rw [hgray₂]
            rfl
          refine ⟨?_, ?_, ?_, ?_, ?_, ?_, ?_⟩
          · rw [vAssign_keys_of_isSome m₂ u _ hus]
            exact n1
          · intro x hx
            rw [vAssign_keys_of_isSome m₂ u _ hus] at hx
            exact n2 x hx
          · rw [vAssign_length_of_isSome m₂ u _ hus]
            exact n3
          · intro x hx
            have hxu : x ≠ u := by
              intro hc
              rw [hc] at hx
              have hbu := n4 u hx
              rw [Black_def] at hbu
              rw [Gray_def, hbu] at hgray₂
              cases hgray₂
            rw [Black_def, vAssign_lookup_ne m₂ u x _ hxu]
            exact n4 x hx
          · rw [Black_def, vAssign_lookup_self]
          · intro x
            by_cases hxu : x = u
            · subst hxu
              constructor
              · intro hc
                rw [Gray_def, vAssign_lookup_self] at hc
                cases hc
              · rintro ⟨_, hc⟩
                exact absurd rfl hc
            · rw [Gray_def, vAssign_lookup_ne m₂ u x _ hxu, ← Gray_def]
              constructor
              · intro hc
                exact ⟨(n6 x).mp hc, hxu⟩
              · rintro ⟨hc, _⟩
                exact (n6 x).mpr hc
          · refine ⟨u :: R₂, ?_, ?_, n8⟩
            · intro x
              by_cases hxu : x = u
              · subst hxu
                simp only [List.mem_cons]
                constructor
                · intro _
                  exact Or.inl trivial
                · intro _
                  rw [Black_def, vAssign_lookup_self]
              · rw [Black_def, vAssign_lookup_ne m₂ u x _ hxu]
                simp only [List.mem_cons]
                constructor
                · intro hc
                  exact Or.inr ((n7 x).mp (by rw [Black_def]; exact hc))
                · intro hc
                  rcases hc with hc | hc
                  · exact absurd hc hxu
                  · have := (n7 x).mpr hc
                    rw [Black_def] at this
                    exact this
            · intro x hx
              exact (n7 x).mp (n5 x hx)

/-! ## Waits-for-graph representation lemmas -/

/-- Every node occurrence of the graph: its keys followed by every edge
target. -/
def nodeUniverse (g : WGraph) : List Nat :=
  g.map Prod.fst ++ (g.map (fun e => e.2)).flatten

theorem wgraph_lookup_cons (x y : Nat) (l : List Nat) (g : WGraph) :
    ((y, l) :: g).lookup x = if y = x then some l else g.lookup x := by
  rw [List.lookup_cons]
  by_cases h : x = y
  · have hb : (x == y) = true := beq_iff_eq.mpr h
    rw [hb, if_pos h.symm]
  · have hb : (x == y) = false := beq_eq_false_iff_ne.mpr h
    rw [hb, if_neg (fun hc => h hc.symm)]

theorem wgraph_lookup_mem (g : WGraph) : ∀ (a : Nat) (l : List Nat),
    g.lookup a = some l → (a, l) ∈ g := by
  induction g with
  | nil =>
    intro a l h
    exact absurd h (by simp)
  | cons e rest ih =>
    intro a l h
    obtain ⟨y, ad⟩ := e
    rw [wgraph_lookup_cons] at h
    by_cases hya : y = a
    · rw [if_pos hya] at h
      have hl : ad = l := Option.some_inj.mp h
      rw [← hya, ← hl]
      exact List.mem_cons_self _ _
    · rw [if_neg hya] at h
      exact List.mem_cons_of_mem _ (ih a l h)

theorem wgraph_mem_lookup : ∀ (g : WGraph), (g.map Prod.fst).Nodup →
    ∀ (a : Nat) (l : List Nat), (a, l) ∈ g → g.lookup a = some l := by
  intro g
  induction g with
  | nil =>
    intro _ a l h
    cases h
  | cons e rest ih =>
    intro hnd a l h
    obtain ⟨y, ad⟩ := e
    rw [List.map_cons] at hnd
    rw [wgraph_lookup_cons]
    rcases List.mem_cons.mp h with h | h
    · injection h with h1 h2
      rw [if_pos h1.symm, h2]
    · have hka : a ∈ rest.map Prod.fst := List.mem_map.mpr ⟨(a, l), h, rfl⟩
      have hyn : ¬ ((y, ad).1 ∈ rest.map Prod.fst) := (List.nodup_cons.mp hnd).1
      have hya : y ≠ a := fun hc => hyn (hc ▸ hka)
      rw [if_neg hya]
      exact ih (List.nodup_cons.mp hnd).2 a l h

/-- With duplicate-free keys (the `unordered_map` representation
invariant), lookup is invariant under reordering the entries. -/
theorem perm_lookup_eq (g g' : WGraph) (hnd : (g.map Prod.fst).Nodup)
    (hp : g.Perm g') (a : Nat) : g.lookup a = g'.lookup a := by
  have hnd' : (g'.map Prod.fst).Nodup := (hp.map Prod.fst).nodup_iff.mp hnd
  cases h : g.lookup a with
  | some l =>
    have hm : (a, l) ∈ g' := hp.mem_iff.mp (wgraph_lookup_mem g a l h)
    rw [wgraph_mem_lookup g' hnd' a l hm]
  | none =>
    cases h' : g'.lookup a with
    | some l =>
      have hm : (a, l) ∈ g := hp.mem_iff.mpr (wgraph_lookup_mem g' a l h')
      rw [wgraph_mem_lookup g hnd a l hm] at h
      exact absurd h (by simp)
    | none => rfl

theorem adjOf_perm (g g' : WGraph) (hnd : (g.map Prod.fst).Nodup)
    (hp : g.Perm g') : adjOf g = adjOf g' := by
  funext t
  unfold adjOf
  rw [perm_lookup_eq g g' hnd hp t]

theorem sortedVertices_perm (g g' : WGraph) (hp : g.Perm g') :
    sortedVertices g = sortedVertices g' := by
  have hperm : (sortedVertices g).Perm (sortedVertices g') := by
    unfold sortedVertices
    exact (List.perm_insertionSort _ _).trans
      ((hp.map Prod.fst).trans (List.perm_insertionSort _ _).symm)
  have hs1 : List.Sorted (· ≤ ·) (sortedVertices g) :=
    List.sorted_insertionSort _ _
  have hs2 : List.Sorted (· ≤ ·) (sortedVertices g') :=
    List.sorted_insertionSort _ _
  exact List.eq_of_perm_of_sorted hperm hs1 hs2

theorem graphFuel_perm (g g' : WGraph) (hp : g.Perm g') :
    graphFuel g = graphFuel g' := by
  unfold graphFuel
  rw [hp.length_eq, (hp.map (fun e => e.2.length)).sum_eq]

theorem adjOf_mem_universe (g : WGraph) :
    ∀ a, ∀ b ∈ adjOf g a, b ∈ nodeUniverse g := by
  intro a b hb
  unfold adjOf at hb
  cases h : g.lookup a with
  | none =>
    rw [h] at hb
    exact absurd hb (List.not_mem_nil b)
  | some l =>
    rw [h] at hb
    have hbl : b ∈ l := hb
    have hm : (a, l) ∈ g := wgraph_lookup_mem g a l h
    unfold nodeUniverse
    apply List.mem_append.mpr
    right
    exact List.mem_flatten.mpr ⟨l, List.mem_map.mpr ⟨(a, l), hm, rfl⟩, hbl⟩

theorem graphFuel_universe (g : WGraph) :
    graphFuel g = 1 + (nodeUniverse g).length := by
  unfold graphFuel nodeUniverse
  rw [List.length_append, List.length_map, List.length_flatten, List.map_map]
  have h : (g.map (List.length ∘ fun e => e.2)).sum
      = (g.map (fun e => e.2.length)).sum := rfl
  omega

/-- Every vertex of a cycle of `adjOf g` has an outgoing edge, hence
is a key of `g`. -/
theorem cycle_mem_keys (g : WGraph) (c : List Nat)
    (hc : IsCycle (adjOf g) c) : ∀ x ∈ c, x ∈ g.map Prod.fst := by
  intro x hx
  obtain ⟨y, hy⟩ := cycle_succ (adjOf g) c hc x hx
  cases h : g.lookup x with
  | none =>
    unfold adjOf at hy
    rw [h] at hy
    exact absurd hy (List.not_mem_nil y)
  | some l =>
    exact List.mem_map.mpr ⟨(x, l), wgraph_lookup_mem g x l h, rfl⟩

theorem mem_sortedVertices (g : WGraph) (x : Nat) :
    x ∈ sortedVertices g ↔ x ∈ g.map Prod.fst := by
  unfold sortedVertices
  exact (List.perm_insertionSort _ _).mem_iff

/-- The vertex-loop invariant of `HasCycle`: starting with no grey
nodes and the blacks listed by an `EEok` finish list, the loop either
reports a genuine maximum-of-a-cycle victim or ends with a finish
list covering every vertex it scanned. -/
theorem hasCycleGo_spec (adj : Nat → List Nat) (U : List Nat)
    (hadjU : ∀ a, ∀ b ∈ adj a, b ∈ U) (fuel : Nat) :
    ∀ (vs : List Nat) (m : VMap) (R : List Nat),
    (mKeys m).Nodup → (∀ x ∈ mKeys m, x ∈ U) → (∀ v ∈ vs, v ∈ U) →
    U.length ≤ fuel + m.length →
    (∀ x, ¬ Gray m x) → (∀ x, Black m x ↔ x ∈ R) → EEok adj R →
    (∀ t, hasCycleGo adj fuel vs m = some t → CycleFound adj t) ∧
    (hasCycleGo adj fuel vs m = none →
      ∃ R', EEok adj R' ∧ (∀ x, Black m x → x ∈ R') ∧ ∀ v ∈ vs, v ∈ R') := by
  intro vs
  induction vs with
  | nil =>
    intro m R _ _ _ _ _ hb hE
    constructor
    · intro t ht
      exact absurd ht (by simp [hasCycleGo])
    · intro _
      exact ⟨R, hE, fun x hx => (hb x).mp hx,
        fun v hv => absurd hv (List.not_mem_nil v)⟩
  | cons v vs ihvs =>
    intro m R hnd hkU hvsU hfuel hng hb hE
    have hvU : v ∈ U := hvsU v (List.mem_cons_self v vs)
    cases hlv : m.lookup v with
    | some col =>
      have hred : hasCycleGo adj fuel (v :: vs) m = hasCycleGo adj fuel vs m := by
        conv_lhs => unfold hasCycleGo
        rw [hlv]
      have hvblack : Black m v := by
        cases col with
        | inStack => exact absurd (show Gray m v from hlv) (hng v)
        | visited => exact hlv
      have hrec := ihvs m R hnd hkU
        (fun w hw => hvsU w (List.mem_cons_of_mem v hw)) hfuel hng hb hE
      constructor
      · intro t ht
        rw [hred] at ht
        exact hrec.1 t ht
      · intro hnone
        rw [hred] at hnone
        obtain ⟨R', hE', hmono, hall⟩ := hrec.2 hnone
        refine ⟨R', hE', hmono, ?_⟩
        intro w hw
        rcases List.mem_cons.mp hw with h | h
        · rw [h]
          exact hmono v hvblack
        · exact hall w h
    | none =>
      have hvnotk : v ∉ mKeys m := (lookup_none_iff_not_mem_keys m v).mp hlv
      have hvspec := dfsVisit_spec adj U hadjU fuel v []
        ((v, VColor.inStack) :: m) R
        (show (v :: mKeys m).Nodup from List.nodup_cons.mpr ⟨hvnotk, hnd⟩)
        (by
          intro x hx
          rcases List.mem_cons.mp hx with h | h
          · rw [h]
            exact hvU
          · exact hkU x h)
        (show 1 + U.length ≤ fuel + (m.length + 1) from by omega)
        (show ((v, VColor.inStack) :: m).lookup v = some VColor.inStack from by
          rw [vmap_lookup_cons, if_pos rfl])
        (by simp)
        (by
          intro x hx
          rcases List.mem_cons.mp hx with h | h
          · rw [h]
            show ((v, VColor.inStack) :: m).lookup v = some VColor.inStack
            rw [vmap_lookup_cons, if_pos rfl]
          · cases h)
        (by
          intro x hx
          rw [Gray_def, vmap_lookup_cons] at hx
          by_cases hxv : v = x
          · exact List.mem_singleton.mpr hxv.symm
          · rw [if_neg hxv] at hx
            exact absurd hx (hng x))
        (by
          intro x
          rw [Black_def, vmap_lookup_cons]
          by_cases hxv : v = x
          · rw [if_pos hxv]
            constructor
            · intro hc
              cases hc
            · intro hc
              rw [← hxv] at hc
              have hbv := (hb v).mpr hc
              rw [Black_def, hlv] at hbv
              cases hbv
          · rw [if_neg hxv]
            exact hb x)
        hE
      cases hdv : dfsVisit adj fuel [v] ((v, VColor.inStack) :: m) with
      | mk r m₂ =>
        cases r with
        | some t =>
          have hred : hasCycleGo adj fuel (v :: vs) m = some t := by
            conv_lhs => unfold hasCycleGo
            rw [hlv, hdv]
          constructor
          · intro t' ht'
            rw [hred] at ht'
            have ht : t' = t := (Option.some_inj.mp ht').symm
            rw [ht]
            exact hvspec.1 t m₂ hdv
          · intro hnone
            rw [hred] at hnone
            cases hnone
        | none =>
          have hred : hasCycleGo adj fuel (v :: vs) m =
              hasCycleGo adj fuel vs m₂ := by
            conv_lhs => unfold hasCycleGo
            rw [hlv, hdv]
          obtain ⟨n1, n2, n3, n4, n5, n6, R₂, n7, n8⟩ := hvspec.2 m₂ hdv
          have hng₂ : ∀ x, ¬ Gray m₂ x := by
            intro x hx
            obtain ⟨hx1, hx2⟩ := (n6 x).mp hx
            rw [Gray_def, vmap_lookup_cons] at hx1
            by_cases hxv : v = x
            · exact hx2 hxv.symm
            · rw [if_neg hxv] at hx1
              exact hng x hx1
          have hlen₂ : m.length + 1 ≤ m₂.length := by
            have h3 := n3
            simpa using h3
          have hrec := ihvs m₂ R₂ n1 n2
            (fun w hw => hvsU w (List.mem_cons_of_mem v hw))
            (by omega) hng₂ n7 n8
          constructor
          · intro t ht
            rw [hred] at ht
            exact hrec.1 t ht
          · intro hnone
            rw [hred] at hnone
            obtain ⟨R', hE', hmono, hall⟩ := hrec.2 hnone
            refine ⟨R', hE', ?_, ?_⟩
            · intro x hx
              apply hmono
              apply n4
              have hxv : v ≠ x := by
                intro hc
                rw [← hc] at hx
                rw [Black_def, hlv] at hx
                cases hx
              rw [Black_def, vmap_lookup_cons, if_neg hxv]
              exact hx
            · intro w hw
              rcases List.mem_cons.mp hw with h | h
              · rw [h]
                exact hmono v n5
              · exact hall w h

/-- C6: whenever the waits-for graph (with the `unordered_map`'s
duplicate-free keys) contains a cycle, `HasCycle` returns true, and the
victim it reports is the maximum transaction id on the cycle it finds;
and since vertices are visited in sorted transaction-id order, the
reported victim is determined by the graph contents alone — every
reordering of the adjacency-map entries yields the same victim. -/
theorem hasCycle_finds_max_victim (g : WGraph)
    (hnd : (g.map Prod.fst).Nodup) (c : List Nat)
    (hc : IsCycle (adjOf g) c) :
    ∃ t cyc, hasCycle g = some t ∧ IsCycle (adjOf g) cyc ∧ t ∈ cyc ∧
      (∀ x ∈ cyc, x ≤ t) ∧
      ∀ g' : WGraph, g.Perm g' → hasCycle g' = some t := by
  have hspec := hasCycleGo_spec (adjOf g) (nodeUniverse g)
    (adjOf_mem_universe g) (graphFuel g) (sortedVertices g) [] []
    List.nodup_nil
    (fun x hx => absurd hx (List.not_mem_nil x))
    (fun v hv => List.mem_append.mpr (Or.inl ((mem_sortedVertices g v).mp hv)))
    (by
      rw [graphFuel_universe]
      show (nodeUniverse g).length ≤ 1 + (nodeUniverse g).length + 0
      omega)
    (by
      intro x hx
      rw [Gray_def, List.lookup_nil] at hx
      cases hx)
    (by
      intro x
      rw [Black_def, List.lookup_nil]
      constructor
      · intro hx
        cases hx
      · intro hx
        exact absurd hx (List.not_mem_nil x))
    trivial
  cases hres : hasCycle g with
  | none =>
    exfalso
    have hres' : hasCycleGo (adjOf g) (graphFuel g) (sortedVertices g) []
        = none := hres
    obtain ⟨R', hE', _, hall⟩ := hspec.2 hres'
    apply EEok_no_cycle (adjOf g) R' hE' c hc
    intro x hx
    exact hall x ((mem_sortedVertices g x).mpr (cycle_mem_keys g c hc x hx))
  | some t =>
    have hres' : hasCycleGo (adjOf g) (graphFuel g) (sortedVertices g) []
        = some t := hres
    obtain ⟨cyc, hcyc, htm, hmax⟩ := hspec.1 t hres'
    refine ⟨t, cyc, rfl, hcyc, htm, hmax, ?_⟩
    intro g' hp
    have h1 : adjOf g' = adjOf g := (adjOf_perm g g' hnd hp).symm
    have h2 : sortedVertices g' = sortedVertices g :=
      (sortedVertices_perm g g' hp).symm
    have h3 : graphFuel g' = graphFuel g := (graphFuel_perm g g' hp).symm
    show hasCycleGo (adjOf g') (graphFuel g') (sortedVertices g') [] = some t
    rw [h1, h2, h3]
    exact hres'

/-- Concrete run of the cycle detector on the two-cycle 1 ⇄ 2: the
victim exists, is on the cycle, and is its maximum id. -/
theorem hasCycle_finds_max_victim_witness :
    IsCycle (adjOf ([(1, [2]), (2, [1])] : WGraph)) [1, 2] ∧
    ∃ t cyc, hasCycle ([(1, [2]), (2, [1])] : WGraph) = some t ∧
      IsCycle (adjOf ([(1, [2]), (2, [1])] : WGraph)) cyc ∧ t ∈ cyc ∧
      (∀ x ∈ cyc, x ≤ t) ∧
      ∀ g' : WGraph, ([(1, [2]), (2, [1])] : WGraph).Perm g' →
        hasCycle g' = some t :=
  ⟨⟨by decide, by rw [List.chain'_cons]; exact ⟨by decide, by simp⟩, by decide⟩,
   hasCycle_finds_max_victim ([(1, [2]), (2, [1])] : WGraph)
    (by decide) [1, 2]
    ⟨by decide, by rw [List.chain'_cons]; exact ⟨by decide, by simp⟩, by decide⟩⟩

end Bustub
